import Mathlib

/-! Stream injector and Poseidon LFSR of NilFoundation/hash.

A shallow embedding of

* `include/nil/crypto3/detail/inject.hpp` (the four `word_injector`
  specialisations and the block `injector`), and
* `include/nil/crypto3/hash/detail/poseidon/poseidon_lfsr.hpp`
  (the 80-bit LFSR behind the Poseidon round constants).

Conventions of the embedding.

* A `word_type` value is a natural number below `2 ^ word_bits`; every store
  into a `word_type` variable of a value that may exceed the width is written
  with an explicit `% 2 ^ word_bits`.
* `<<` and `>>` are the shifts of natural numbers, the left shift followed by
  the `% 2 ^ word_bits` of the store.  Where the source shifts a value by at
  least the width of its type (undefined in C++; the unit-ordered injectors do
  so on a zero mask, e.g. `low_bits(~0, 0) << (w_unit_bits + UnitBits)` for a
  full word), the embedding gives the mathematical result.
* A `std::size_t` bit count is a natural number; the one `std::size_t` that the
  source decrements in a loop, `bw_space`, is an integer so that a decrement
  below zero stays visible.  The injectors are given twice: first with the sums
  of bit counts as sums of natural numbers, which is what the source computes
  as long as `block_seen + word_seen < 2 ^ 64`, and then, in `size_t`, with
  these sums reduced modulo `2 ^ 64` as `std::size_t` arithmetic is, for the
  statements that range over every bit count.
* A `block_type` (`std::array<word_type, BlockWords>`) is a list of words of
  length `BlockWords`.  Reading or writing an index outside the array is
  undefined in the source; the embedding reads `0` and writes nothing there,
  and the theorems about block contents are stated for in-range calls.
* A reference parameter becomes a component of the returned pair; a parameter
  taken by value is returned as the caller sees it after the call.
-/

namespace Crypto3

/-! ## Bit-mask helpers -/

/-- The value `~word_type()`: all `word_bits` bits set. -/
def all_ones (word_bits : Nat) : Nat := 2 ^ word_bits - 1

/-- Modelled from the spec: `high_bits<word_type, word_bits>(x, n)` of
`basic_functions.hpp`, which is not among the sources.  The spec describes it
as the helper that, given a word width, selects the top `n` bits: `x` is
masked with the `n` most significant of its `word_bits` bits. -/
def high_bits (word_bits x n : Nat) : Nat :=
  x &&& ((all_ones word_bits <<< (word_bits - n)) % 2 ^ word_bits)

/-- Modelled from the spec: `low_bits<word_type, word_bits>(x, n)` of
`basic_functions.hpp`, which is not among the sources.  The spec describes it
as the helper that, given a word width, selects the bottom `n` bits: `x` is
masked with the `n` least significant of its `word_bits` bits. -/
def low_bits (word_bits x n : Nat) : Nat :=
  x &&& (all_ones word_bits >>> (word_bits - n))

/-! ## Blocks -/

/-- The type `block_type`, i.e. `std::array<word_type, BlockWords>`. -/
abbrev Block := List Nat

/-- The read `b[i]`. -/
def Block.rd (b : Block) (i : Nat) : Nat := b.getD i 0

/-- The store `b[i] = v`. -/
def Block.wr (b : Block) (i v : Nat) : Block := b.set i v

/-- A block whose entries all fit in `word_bits` bits. -/
def Block.WellTyped (word_bits : Nat) (b : Block) : Prop := ∀ x ∈ b, x < 2 ^ word_bits

/-! ## Word injectors -/

namespace word_injector

/-- The member `word_injector<big_unit_big_bit<UnitBits>, ...>::inject`
(inject.hpp, lines 34-55).  The cursor `block_seen` is a reference parameter:
the second component is its value after the call. -/
def inject_big_unit_big_bit (word_bits BlockBits : Nat)
    (w word_seen : Nat) (b : Block) (block_seen : Nat) : Block × Nat :=
  if block_seen + word_seen ≤ BlockBits then
    let last_word_ind := block_seen / word_bits
    let last_word_seen := block_seen % word_bits
    -- Remove garbage
    let w := high_bits word_bits w word_seen
    let b := b.wr last_word_ind (high_bits word_bits (b.rd last_word_ind) last_word_seen)
    -- Add significant word bits to block word
    let b := b.wr last_word_ind (b.rd last_word_ind ||| (w >>> last_word_seen))
    -- If we fall out of the block word, push the remainder to the next block word
    let b := if last_word_seen + word_seen > word_bits then
        b.wr (last_word_ind + 1) ((w <<< (word_bits - last_word_seen)) % 2 ^ word_bits)
      else b
    (b, block_seen + word_seen)
  else (b, block_seen)

/-- The state of the two splitting loops of the unit-ordered injectors: the
locals `w`, `w_split`, `bw_space`, `masks[0]`, `masks[1]` and `sz_ind`. -/
structure SplitState where
  w : Nat
  w_split : Nat
  bw_space : Int
  masks0 : Nat
  masks1 : Nat
  sz_ind : Nat
deriving DecidableEq, Repr

/-- A `while (cond) body` loop run for at most `fuel` iterations. -/
def while_loop {σ : Type} (cond : σ → Bool) (body : σ → σ) : Nat → σ → σ
  | 0, s => s
  | fuel + 1, s => if cond s then while_loop cond body fuel (body s) else s

/-- The number of iterations of `while_loop` that are taken before the
condition fails, `none` when it still holds after `fuel` iterations. -/
def while_iterations {σ : Type} (cond : σ → Bool) (body : σ → σ) : Nat → σ → Option Nat
  | 0, s => if cond s then none else some 0
  | fuel + 1, s =>
    if cond s then (while_iterations cond body fuel (body s)).map (· + 1) else some 0

/-- The body of the loops of `little_unit_big_bit` (inject.hpp, lines 95-99 and
113-116); `with_space` tells whether `bw_space -= sz[sz_ind]` is part of it
(first loop) or not (second loop). -/
def lubb_body (word_bits UnitBits b_rem : Nat) (with_space : Bool) (s : SplitState) :
    SplitState :=
  let sz0 := UnitBits - b_rem
  let sz1 := b_rem
  { w_split := (s.w_split ||| (if s.sz_ind = 0 then (s.w &&& s.masks0) >>> b_rem
        else (s.w &&& s.masks1) <<< (UnitBits + sz0))) % 2 ^ word_bits
    bw_space := if with_space then s.bw_space - (if s.sz_ind = 0 then sz0 else sz1)
        else s.bw_space
    w := s.w &&& (all_ones word_bits ^^^ (if s.sz_ind = 0 then s.masks0 else s.masks1))
    masks0 := if s.sz_ind = 0 then (s.masks0 <<< UnitBits) % 2 ^ word_bits else s.masks0
    masks1 := if s.sz_ind = 0 then s.masks1 else (s.masks1 <<< UnitBits) % 2 ^ word_bits
    sz_ind := 1 - s.sz_ind }

/-- The body of the loops of `big_unit_little_bit` (inject.hpp, lines 164-168
and 182-185). -/
def bulb_body (word_bits UnitBits b_rem : Nat) (with_space : Bool) (s : SplitState) :
    SplitState :=
  let sz0 := UnitBits - b_rem
  let sz1 := b_rem
  { w_split := (s.w_split ||| (if s.sz_ind = 0 then (s.w &&& s.masks0) <<< b_rem
        else (s.w &&& s.masks1) >>> (UnitBits + sz0))) % 2 ^ word_bits
    bw_space := if with_space then s.bw_space - (if s.sz_ind = 0 then sz0 else sz1)
        else s.bw_space
    w := s.w &&& (all_ones word_bits ^^^ (if s.sz_ind = 0 then s.masks0 else s.masks1))
    masks0 := if s.sz_ind = 0 then s.masks0 >>> UnitBits else s.masks0
    masks1 := if s.sz_ind = 0 then s.masks1 else s.masks1 >>> UnitBits
    sz_ind := 1 - s.sz_ind }

/-- The bound on the iterations of the splitting loops used by the embedding:
each iteration shifts one of the two masks by a unit, so after `2 * word_bits`
iterations both masks have left the word. -/
def split_fuel (word_bits : Nat) : Nat := 2 * word_bits

/-- The state in which the first loop of `little_unit_big_bit` starts
(inject.hpp, lines 71-92): `w` masked, the masks and `bw_space` initialised. -/
def lubb_init (word_bits UnitBits : Nat) (w word_seen block_seen : Nat) : SplitState :=
  let last_word_seen := block_seen % word_bits
  let w_rem := word_seen % UnitBits
  let w_unit_bits := word_seen - w_rem
  let mask := (low_bits word_bits (all_ones word_bits) w_unit_bits
    ||| (low_bits word_bits (all_ones word_bits) w_rem <<< (w_unit_bits + UnitBits - w_rem)))
    % 2 ^ word_bits
  let b_rem := last_word_seen % UnitBits
  { w := w &&& mask
    w_split := 0
    bw_space := (word_bits : Int) - (last_word_seen : Int)
    masks0 := (low_bits word_bits (all_ones word_bits) (UnitBits - b_rem) <<< b_rem)
      % 2 ^ word_bits
    masks1 := low_bits word_bits (all_ones word_bits) b_rem
    sz_ind := 0 }

/-- The state in which the second loop of `little_unit_big_bit` starts
(inject.hpp, lines 107-110), from the state `s` the first loop ended in. -/
def lubb_reinit (word_bits UnitBits block_seen : Nat) (s : SplitState) : SplitState :=
  let last_word_seen := block_seen % word_bits
  let b_rem := last_word_seen % UnitBits
  let b_unit_bits := last_word_seen - b_rem
  { s with
    w := s.w >>> (word_bits - b_unit_bits - UnitBits)
    w_split := 0
    masks0 := (low_bits word_bits (all_ones word_bits) (UnitBits - b_rem) <<< b_rem)
      % 2 ^ word_bits
    masks1 := low_bits word_bits (all_ones word_bits) b_rem }

/-- The member `word_injector<little_unit_big_bit<UnitBits>, ...>::inject`
(inject.hpp, lines 66-124).  The cursor `block_seen` is taken by value, so the
final `block_seen += word_seen` changes a local copy only: the second component
is the cursor as the caller sees it after the call. -/
def inject_little_unit_big_bit (UnitBits word_bits BlockBits : Nat)
    (w word_seen : Nat) (b : Block) (block_seen : Nat) : Block × Nat :=
  if block_seen + word_seen ≤ BlockBits then
    let last_word_ind := block_seen / word_bits
    let last_word_seen := block_seen % word_bits
    let b_rem := last_word_seen % UnitBits
    let b_unit_bits := last_word_seen - b_rem
    let mask := (low_bits word_bits (all_ones word_bits) b_unit_bits
      ||| (low_bits word_bits (all_ones word_bits) b_rem <<< (b_unit_bits + UnitBits - b_rem)))
      % 2 ^ word_bits
    let b := b.wr last_word_ind (b.rd last_word_ind &&& mask)
    -- Split and combine parts of unit values
    let s := while_loop (fun s => decide (s.bw_space ≠ 0) && decide (s.w ≠ 0))
      (lubb_body word_bits UnitBits b_rem true) (split_fuel word_bits)
      (lubb_init word_bits UnitBits w word_seen block_seen)
    -- Add significant word bits to block word
    let b := b.wr last_word_ind
      ((b.rd last_word_ind ||| (s.w_split <<< b_unit_bits)) % 2 ^ word_bits)
    -- If we fall out of the block word, push the remainder to the next block word
    let b := if s.w ≠ 0 then
        let s := while_loop (fun s => decide (s.w ≠ 0))
          (lubb_body word_bits UnitBits b_rem false) (split_fuel word_bits)
          (lubb_reinit word_bits UnitBits block_seen s)
        b.wr (last_word_ind + 1) (s.w_split >>> UnitBits)
      else b
    (b, block_seen)
  else (b, block_seen)

/-- The state in which the first loop of `big_unit_little_bit` starts
(inject.hpp, lines 140-161). -/
def bulb_init (word_bits UnitBits : Nat) (w word_seen block_seen : Nat) : SplitState :=
  let last_word_seen := block_seen % word_bits
  let w_rem := word_seen % UnitBits
  let w_unit_bits := word_seen - w_rem
  let mask := high_bits word_bits (all_ones word_bits) w_unit_bits
    ||| (high_bits word_bits (all_ones word_bits) w_rem >>> (w_unit_bits + UnitBits - w_rem))
  let b_rem := last_word_seen % UnitBits
  { w := w &&& mask
    w_split := 0
    bw_space := (word_bits : Int) - (last_word_seen : Int)
    masks0 := high_bits word_bits (all_ones word_bits) (UnitBits - b_rem) >>> b_rem
    masks1 := high_bits word_bits (all_ones word_bits) b_rem
    sz_ind := 0 }

/-- The state in which the second loop of `big_unit_little_bit` starts
(inject.hpp, lines 176-179), from the state `s` the first loop ended in. -/
def bulb_reinit (word_bits UnitBits block_seen : Nat) (s : SplitState) : SplitState :=
  let last_word_seen := block_seen % word_bits
  let b_rem := last_word_seen % UnitBits
  let b_unit_bits := last_word_seen - b_rem
  { s with
    w := (s.w <<< (word_bits - b_unit_bits - UnitBits)) % 2 ^ word_bits
    w_split := 0
    masks0 := high_bits word_bits (all_ones word_bits) (UnitBits - b_rem) >>> b_rem
    masks1 := high_bits word_bits (all_ones word_bits) b_rem }

/-- The member `word_injector<big_unit_little_bit<UnitBits>, ...>::inject`
(inject.hpp, lines 135-192).  The cursor `block_seen` is taken by value: the
second component is the cursor as the caller sees it after the call. -/
def inject_big_unit_little_bit (UnitBits word_bits BlockBits : Nat)
    (w word_seen : Nat) (b : Block) (block_seen : Nat) : Block × Nat :=
  if block_seen + word_seen ≤ BlockBits then
    let last_word_ind := block_seen / word_bits
    let last_word_seen := block_seen % word_bits
    let b_rem := last_word_seen % UnitBits
    let b_unit_bits := last_word_seen - b_rem
    let mask := high_bits word_bits (all_ones word_bits) b_unit_bits
      ||| (high_bits word_bits (all_ones word_bits) b_rem >>> (b_unit_bits + UnitBits - b_rem))
    let b := b.wr last_word_ind (b.rd last_word_ind &&& mask)
    -- Split and combine parts of unit values
    let s := while_loop (fun s => decide (s.bw_space ≠ 0) && decide (s.w ≠ 0))
      (bulb_body word_bits UnitBits b_rem true) (split_fuel word_bits)
      (bulb_init word_bits UnitBits w word_seen block_seen)
    -- Add significant word bits to block word
    let b := b.wr last_word_ind (b.rd last_word_ind ||| (s.w_split >>> b_unit_bits))
    -- If we fall out of the block word, push the remainder to the next block word
    let b := if s.w ≠ 0 then
        let s := while_loop (fun s => decide (s.w ≠ 0))
          (bulb_body word_bits UnitBits b_rem false) (split_fuel word_bits)
          (bulb_reinit word_bits UnitBits block_seen s)
        b.wr (last_word_ind + 1) ((s.w_split <<< UnitBits) % 2 ^ word_bits)
      else b
    (b, block_seen)
  else (b, block_seen)

/-- The member `word_injector<little_unit_little_bit<UnitBits>, ...>::inject`
(inject.hpp, lines 203-224).  The cursor `block_seen` is taken by value: the
second component is the cursor as the caller sees it after the call. -/
def inject_little_unit_little_bit (word_bits BlockBits : Nat)
    (w word_seen : Nat) (b : Block) (block_seen : Nat) : Block × Nat :=
  if block_seen + word_seen ≤ BlockBits then
    let last_word_ind := block_seen / word_bits
    let last_word_seen := block_seen % word_bits
    -- Remove garbage
    let w := low_bits word_bits w word_seen
    let b := b.wr last_word_ind (low_bits word_bits (b.rd last_word_ind) last_word_seen)
    -- Add significant word bits to block word
    let b := b.wr last_word_ind ((b.rd last_word_ind ||| (w <<< last_word_seen)) % 2 ^ word_bits)
    -- If we fall out of the block word, push the remainder to the next block word
    let b := if last_word_seen + word_seen > word_bits then
        b.wr (last_word_ind + 1) (w >>> (word_bits - last_word_seen))
      else b
    (b, block_seen)
  else (b, block_seen)

/-- The local `last_word_ind` of the word injectors (inject.hpp, line 39): the
index of the block word the cursor points into. -/
def last_word_ind (word_bits block_seen : Nat) : Nat := block_seen / word_bits

/-- The local `last_word_seen` of the word injectors (inject.hpp, line 40): the
number of bits already written into that word. -/
def last_word_seen (word_bits block_seen : Nat) : Nat := block_seen % word_bits

/-- The amount `word_bits - last_word_seen` by which `big_unit_big_bit` shifts
`w` into the next block word (inject.hpp, line 51). -/
def spill_shift (word_bits block_seen : Nat) : Nat :=
  word_bits - last_word_seen word_bits block_seen

end word_injector

/-- The four stream endianness tags of `stream_endian.hpp`, each with its
`UnitBits` parameter. -/
inductive Endianness where
  | big_unit_big_bit (UnitBits : Nat)
  | little_unit_big_bit (UnitBits : Nat)
  | big_unit_little_bit (UnitBits : Nat)
  | little_unit_little_bit (UnitBits : Nat)
deriving DecidableEq, Repr

/-- The template `word_injector<Endianness, WordBits, BlockWords, BlockBits>`:
the specialisation selected by the endianness tag. -/
def word_injector.inject (e : Endianness) (word_bits BlockBits : Nat)
    (w word_seen : Nat) (b : Block) (block_seen : Nat) : Block × Nat :=
  match e with
  | .big_unit_big_bit _ =>
    word_injector.inject_big_unit_big_bit word_bits BlockBits w word_seen b block_seen
  | .little_unit_big_bit u =>
    word_injector.inject_little_unit_big_bit u word_bits BlockBits w word_seen b block_seen
  | .big_unit_little_bit u =>
    word_injector.inject_big_unit_little_bit u word_bits BlockBits w word_seen b block_seen
  | .little_unit_little_bit _ =>
    word_injector.inject_little_unit_little_bit word_bits BlockBits w word_seen b block_seen

namespace injector

/-- The overload `injector::inject(word_type, std::size_t, block_type &,
std::size_t &)` (inject.hpp, lines 252-254), which forwards to the word
injector. -/
def inject_word (e : Endianness) (word_bits BlockBits : Nat)
    (w word_seen : Nat) (b : Block) (block_seen : Nat) : Block × Nat :=
  word_injector.inject e word_bits BlockBits w word_seen b block_seen

/-- The overload `injector::inject(const block_type &, std::size_t, block_type &,
std::size_t &)` (inject.hpp, lines 235-250): the block injector. -/
def inject (e : Endianness) (word_bits BlockBits : Nat)
    (b_src : Block) (b_src_seen : Nat) (b_dst : Block) (b_dst_seen : Nat) : Block × Nat :=
  if b_src_seen + b_dst_seen ≤ BlockBits then
    let st := (List.range (b_src_seen / word_bits)).foldl
      (fun st i => inject_word e word_bits BlockBits (b_src.rd i) word_bits st.1 st.2)
      (b_dst, b_dst_seen)
    if b_src_seen % word_bits ≠ 0 then
      inject_word e word_bits BlockBits (b_src.rd (b_src_seen / word_bits))
        (b_src_seen % word_bits) st.1 st.2
    else st
  else (b_dst, b_dst_seen)

end injector

/-! ## The injectors with the cursor sums in `std::size_t`

The sums `block_seen + word_seen` of the guard and of the cursor update, the
sum `last_word_seen + word_seen` of the spill test and the index
`last_word_ind + 1` are sums of `std::size_t` values, which the source reduces
modulo `2 ^ 64`.  The definitions of this section repeat the injectors with
these sums reduced; everything else is as in the definitions above. -/

namespace size_t

/-- The width of `std::size_t` on the 64-bit targets of the library. -/
def bits : Nat := 64

/-- The sum `a + b` of two `std::size_t` values: unsigned arithmetic, reduced
modulo `2 ^ bits`. -/
def add (a b : Nat) : Nat := (a + b) % 2 ^ bits

end size_t

/-- The member `word_injector<big_unit_big_bit<UnitBits>, ...>::inject`
(inject.hpp, lines 34-55) with the sums of `std::size_t` values reduced.  The
cursor `block_seen` is a reference parameter: the second component is its value
after the call. -/
def size_t.word_injector.inject_big_unit_big_bit (word_bits BlockBits : Nat)
    (w word_seen : Nat) (b : Block) (block_seen : Nat) : Block × Nat :=
  if size_t.add block_seen word_seen ≤ BlockBits then
    let last_word_ind := block_seen / word_bits
    let last_word_seen := block_seen % word_bits
    -- Remove garbage
    let w := high_bits word_bits w word_seen
    let b := b.wr last_word_ind (high_bits word_bits (b.rd last_word_ind) last_word_seen)
    -- Add significant word bits to block word
    let b := b.wr last_word_ind (b.rd last_word_ind ||| (w >>> last_word_seen))
    -- If we fall out of the block word, push the remainder to the next block word
    let b := if size_t.add last_word_seen word_seen > word_bits then
        b.wr (size_t.add last_word_ind 1) ((w <<< (word_bits - last_word_seen)) % 2 ^ word_bits)
      else b
    (b, size_t.add block_seen word_seen)
  else (b, block_seen)

/-- The member `word_injector<little_unit_big_bit<UnitBits>, ...>::inject`
(inject.hpp, lines 66-124) with the sums of `std::size_t` values reduced.  The
cursor `block_seen` is taken by value: the second component is the cursor as
the caller sees it after the call. -/
def size_t.word_injector.inject_little_unit_big_bit (UnitBits word_bits BlockBits : Nat)
    (w word_seen : Nat) (b : Block) (block_seen : Nat) : Block × Nat :=
  if size_t.add block_seen word_seen ≤ BlockBits then
    let last_word_ind := block_seen / word_bits
    let last_word_seen := block_seen % word_bits
    let b_rem := last_word_seen % UnitBits
    let b_unit_bits := last_word_seen - b_rem
    let mask := (low_bits word_bits (all_ones word_bits) b_unit_bits
      ||| (low_bits word_bits (all_ones word_bits) b_rem <<< (b_unit_bits + UnitBits - b_rem)))
      % 2 ^ word_bits
    let b := b.wr last_word_ind (b.rd last_word_ind &&& mask)
    -- Split and combine parts of unit values
    let s := Crypto3.word_injector.while_loop
      (fun s => decide (s.bw_space ≠ 0) && decide (s.w ≠ 0))
      (Crypto3.word_injector.lubb_body word_bits UnitBits b_rem true)
      (Crypto3.word_injector.split_fuel word_bits)
      (Crypto3.word_injector.lubb_init word_bits UnitBits w word_seen block_seen)
    -- Add significant word bits to block word
    let b := b.wr last_word_ind
      ((b.rd last_word_ind ||| (s.w_split <<< b_unit_bits)) % 2 ^ word_bits)
    -- If we fall out of the block word, push the remainder to the next block word
    let b := if s.w ≠ 0 then
        let s := Crypto3.word_injector.while_loop (fun s => decide (s.w ≠ 0))
          (Crypto3.word_injector.lubb_body word_bits UnitBits b_rem false)
          (Crypto3.word_injector.split_fuel word_bits)
          (Crypto3.word_injector.lubb_reinit word_bits UnitBits block_seen s)
        b.wr (size_t.add last_word_ind 1) (s.w_split >>> UnitBits)
      else b
    (b, block_seen)
  else (b, block_seen)

/-- The member `word_injector<big_unit_little_bit<UnitBits>, ...>::inject`
(inject.hpp, lines 135-192) with the sums of `std::size_t` values reduced.  The
cursor `block_seen` is taken by value: the second component is the cursor as
the caller sees it after the call. -/
def size_t.word_injector.inject_big_unit_little_bit (UnitBits word_bits BlockBits : Nat)
    (w word_seen : Nat) (b : Block) (block_seen : Nat) : Block × Nat :=
  if size_t.add block_seen word_seen ≤ BlockBits then
    let last_word_ind := block_seen / word_bits
    let last_word_seen := block_seen % word_bits
    let b_rem := last_word_seen % UnitBits
    let b_unit_bits := last_word_seen - b_rem
    let mask := high_bits word_bits (all_ones word_bits) b_unit_bits
      ||| (high_bits word_bits (all_ones word_bits) b_rem >>> (b_unit_bits + UnitBits - b_rem))
    let b := b.wr last_word_ind (b.rd last_word_ind &&& mask)
    -- Split and combine parts of unit values
    let s := Crypto3.word_injector.while_loop
      (fun s => decide (s.bw_space ≠ 0) && decide (s.w ≠ 0))
      (Crypto3.word_injector.bulb_body word_bits UnitBits b_rem true)
      (Crypto3.word_injector.split_fuel word_bits)
      (Crypto3.word_injector.bulb_init word_bits UnitBits w word_seen block_seen)
    -- Add significant word bits to block word
    let b := b.wr last_word_ind (b.rd last_word_ind ||| (s.w_split >>> b_unit_bits))
    -- If we fall out of the block word, push the remainder to the next block word
    let b := if s.w ≠ 0 then
        let s := Crypto3.word_injector.while_loop (fun s => decide (s.w ≠ 0))
          (Crypto3.word_injector.bulb_body word_bits UnitBits b_rem false)
          (Crypto3.word_injector.split_fuel word_bits)
          (Crypto3.word_injector.bulb_reinit word_bits UnitBits block_seen s)
        b.wr (size_t.add last_word_ind 1) ((s.w_split <<< UnitBits) % 2 ^ word_bits)
      else b
    (b, block_seen)
  else (b, block_seen)

/-- The member `word_injector<little_unit_little_bit<UnitBits>, ...>::inject`
(inject.hpp, lines 203-224) with the sums of `std::size_t` values reduced.  The
cursor `block_seen` is taken by value: the second component is the cursor as
the caller sees it after the call. -/
def size_t.word_injector.inject_little_unit_little_bit (word_bits BlockBits : Nat)
    (w word_seen : Nat) (b : Block) (block_seen : Nat) : Block × Nat :=
  if size_t.add block_seen word_seen ≤ BlockBits then
    let last_word_ind := block_seen / word_bits
    let last_word_seen := block_seen % word_bits
    -- Remove garbage
    let w := low_bits word_bits w word_seen
    let b := b.wr last_word_ind (low_bits word_bits (b.rd last_word_ind) last_word_seen)
    -- Add significant word bits to block word
    let b := b.wr last_word_ind ((b.rd last_word_ind ||| (w <<< last_word_seen)) % 2 ^ word_bits)
    -- If we fall out of the block word, push the remainder to the next block word
    let b := if size_t.add last_word_seen word_seen > word_bits then
        b.wr (size_t.add last_word_ind 1) (w >>> (word_bits - last_word_seen))
      else b
    (b, block_seen)
  else (b, block_seen)

/-- The template `word_injector<Endianness, WordBits, BlockWords, BlockBits>`
with the sums of `std::size_t` values reduced: the specialisation selected by
the endianness tag. -/
def size_t.word_injector.inject (e : Endianness) (word_bits BlockBits : Nat)
    (w word_seen : Nat) (b : Block) (block_seen : Nat) : Block × Nat :=
  match e with
  | .big_unit_big_bit _ =>
    size_t.word_injector.inject_big_unit_big_bit word_bits BlockBits w word_seen b block_seen
  | .little_unit_big_bit u =>
    size_t.word_injector.inject_little_unit_big_bit u word_bits BlockBits w word_seen b
      block_seen
  | .big_unit_little_bit u =>
    size_t.word_injector.inject_big_unit_little_bit u word_bits BlockBits w word_seen b
      block_seen
  | .little_unit_little_bit _ =>
    size_t.word_injector.inject_little_unit_little_bit word_bits BlockBits w word_seen b
      block_seen

/-- The overload `injector::inject(word_type, std::size_t, block_type &,
std::size_t &)` (inject.hpp, lines 252-254) over the word injector with the
sums of `std::size_t` values reduced. -/
def size_t.injector.inject_word (e : Endianness) (word_bits BlockBits : Nat)
    (w word_seen : Nat) (b : Block) (block_seen : Nat) : Block × Nat :=
  size_t.word_injector.inject e word_bits BlockBits w word_seen b block_seen

/-- The overload `injector::inject(const block_type &, std::size_t, block_type &,
std::size_t &)` (inject.hpp, lines 235-250), the block injector, with the sum
`b_src_seen + b_dst_seen` of its guard reduced. -/
def size_t.injector.inject (e : Endianness) (word_bits BlockBits : Nat)
    (b_src : Block) (b_src_seen : Nat) (b_dst : Block) (b_dst_seen : Nat) : Block × Nat :=
  if size_t.add b_src_seen b_dst_seen ≤ BlockBits then
    let st := (List.range (b_src_seen / word_bits)).foldl
      (fun st i =>
        size_t.injector.inject_word e word_bits BlockBits (b_src.rd i) word_bits st.1 st.2)
      (b_dst, b_dst_seen)
    if b_src_seen % word_bits ≠ 0 then
      size_t.injector.inject_word e word_bits BlockBits (b_src.rd (b_src_seen / word_bits))
        (b_src_seen % word_bits) st.1 st.2
    else st
  else (b_dst, b_dst_seen)

/-! ## Bit numbering of blocks -/

/-- Stream bit `k` of a block under most-significant-bit-first numbering: bit
`word_bits - 1 - k % word_bits` (least significant = 0) of word `k / word_bits`. -/
def streamBitBB (word_bits : Nat) (b : Block) (k : Nat) : Bool :=
  (b.rd (k / word_bits)).testBit (word_bits - 1 - k % word_bits)

/-- Stream bit `k` of a block under least-significant-bit-first numbering: bit
`k % word_bits` (least significant = 0) of word `k / word_bits`. -/
def streamBitLL (word_bits : Nat) (b : Block) (k : Nat) : Bool :=
  (b.rd (k / word_bits)).testBit (k % word_bits)

/-- Stream bit `k` of a word under `little_unit_big_bit` numbering (least
significant unit first, most significant bit first inside a unit): its bit
`(k / UnitBits) * UnitBits + (UnitBits - 1 - k % UnitBits)`. -/
def wordStreamBitLUBB (UnitBits : Nat) (x k : Nat) : Bool :=
  x.testBit ((k / UnitBits) * UnitBits + (UnitBits - 1 - k % UnitBits))

/-- Stream bit `k` of a block under `little_unit_big_bit` numbering: stream bit
`k % word_bits` of word `k / word_bits`. -/
def streamBitLUBB (UnitBits word_bits : Nat) (b : Block) (k : Nat) : Bool :=
  wordStreamBitLUBB UnitBits (b.rd (k / word_bits)) (k % word_bits)

/-- The word `w` with the `word_bits` bits reversed: bit `j` of the result is
bit `word_bits - 1 - j` of `w`. -/
def rev_bits : Nat → Nat → Nat
  | 0, _ => 0
  | word_bits + 1, w => (w % 2) * 2 ^ word_bits + rev_bits word_bits (w / 2)

/-- The state of the splitting loops with its four words bit-reversed. -/
def SplitState.rev (word_bits : Nat) (s : word_injector.SplitState) :
    word_injector.SplitState :=
  { w := rev_bits word_bits s.w
    w_split := rev_bits word_bits s.w_split
    bw_space := s.bw_space
    masks0 := rev_bits word_bits s.masks0
    masks1 := rev_bits word_bits s.masks1
    sz_ind := s.sz_ind }

/-- The four words of a splitting-loop state fit in `word_bits` bits. -/
def SplitState.Bounded (word_bits : Nat) (s : word_injector.SplitState) : Prop :=
  s.w < 2 ^ word_bits ∧ s.w_split < 2 ^ word_bits ∧ s.masks0 < 2 ^ word_bits ∧
    s.masks1 < 2 ^ word_bits

/-- The word `w` as `little_unit_big_bit` masks it to its first `word_seen`
stream bits (inject.hpp, lines 75-79). -/
def lubb_masked (word_bits UnitBits w word_seen : Nat) : Nat :=
  let w_rem := word_seen % UnitBits
  let w_unit_bits := word_seen - w_rem
  w &&& ((low_bits word_bits (all_ones word_bits) w_unit_bits
    ||| (low_bits word_bits (all_ones word_bits) w_rem <<< (w_unit_bits + UnitBits - w_rem)))
    % 2 ^ word_bits)

/-- Spec side of the composability property: `N` successive word injections
`inject(src[0], word_bits)`, ..., `inject(src[N-1], word_bits)`, the cursor of
one call handed to the next. -/
def successive_word_injections (e : Endianness) (word_bits BlockBits : Nat) (src : Block) :
    Nat → Block × Nat → Block × Nat
  | 0, st => st
  | N + 1, st =>
    let st := successive_word_injections e word_bits BlockBits src N st
    injector.inject_word e word_bits BlockBits (src.rd N) word_bits st.1 st.2

/-- Spec side of the composability property: `N` separate full-word injections
followed, when `r > 0`, by one `r`-bit injection of `src[N]`. -/
def word_by_word (e : Endianness) (word_bits BlockBits : Nat) (src : Block) (N r : Nat)
    (st : Block × Nat) : Block × Nat :=
  let st := successive_word_injections e word_bits BlockBits src N st
  if 0 < r then injector.inject_word e word_bits BlockBits (src.rd N) r st.1 st.2 else st

/-! ## Poseidon LFSR -/

namespace poseidon_lfsr

/-- The constant `lfsr_state_bits` (`POSEIDON_LFSR_GENERATOR_LEN`). -/
def lfsr_state_bits : Nat := 80

/-- The function `get_lfsr_state_bit` (poseidon_lfsr.hpp, lines 107-111);
`bit_getter` is an `lfsr_state_type`, so the shifted `1` is cut to 80 bits. -/
def get_lfsr_state_bit (state pos : Nat) : Bool :=
  let bit_getter := (1 <<< (lfsr_state_bits - 1 - pos)) % 2 ^ lfsr_state_bits
  state &&& bit_getter != 0

/-- The template `set_new_bit<T>` (poseidon_lfsr.hpp, lines 113-116) for an
unsigned type `T` of `type_bits` bits. -/
def set_new_bit (type_bits : Nat) (var : Nat) (new_bit : Bool) : Nat :=
  ((var <<< 1) ||| (if new_bit then 1 else 0)) % 2 ^ type_bits

/-- The function `update_lfsr_state_raw` (poseidon_lfsr.hpp, lines 100-105);
`!=` on `bool` associates to the left. -/
def update_lfsr_state_raw (state : Nat) : Nat :=
  let new_bit := (((((get_lfsr_state_bit state 0 != get_lfsr_state_bit state 13)
    != get_lfsr_state_bit state 23) != get_lfsr_state_bit state 38)
    != get_lfsr_state_bit state 51) != get_lfsr_state_bit state 62)
  set_new_bit lfsr_state_bits state new_bit

/-- The loop `while (true)` of `update_lfsr_state` (poseidon_lfsr.hpp, lines
90-96) run for at most `fuel` iterations: the state at the `break`, or `none`
when no `break` is reached within `fuel` iterations. -/
def update_lfsr_state_loop : Nat → Nat → Option Nat
  | 0, _ => none
  | fuel + 1, state =>
    let state := update_lfsr_state_raw state
    if get_lfsr_state_bit state (lfsr_state_bits - 1) then some state
    else update_lfsr_state_loop fuel (update_lfsr_state_raw state)

/-- The function `update_lfsr_state` (poseidon_lfsr.hpp, lines 89-98) with its
loop bounded by `fuel`. -/
def update_lfsr_state (fuel state : Nat) : Option Nat :=
  (update_lfsr_state_loop fuel state).map update_lfsr_state_raw

/-- The call `update_lfsr_state(state)` terminates and returns `r`. -/
def update_lfsr_state_returns (state r : Nat) : Prop :=
  ∃ fuel, update_lfsr_state fuel state = some r

/-- A descending loop `for (i = n - 1; i >= 0; i--) s = body(i, s)`. -/
def for_down {σ : Type} (body : Nat → σ → σ) : Nat → σ → σ
  | 0, s => s
  | n + 1, s => for_down body n (body n s)

/-- The value of `state` in `get_lfsr_init_state` just before the idling loop
(poseidon_lfsr.hpp, lines 67-82), for the policy constants `word_bits`,
`state_words`, `full_rounds` and `part_rounds`. -/
def lfsr_pre_idle_state (word_bits state_words full_rounds part_rounds : Nat) : Nat :=
  let push (value : Nat → Nat) : Nat → Nat → Nat :=
    for_down (fun i state => set_new_bit lfsr_state_bits state (((value i) &&& 1) != 0))
  let state := 0
  let state := push (fun i => 1 >>> i) 2 state
  let state := push (fun i => 1 >>> i) 4 state
  let state := push (fun i => word_bits >>> i) 12 state
  let state := push (fun i => state_words >>> i) 12 state
  let state := push (fun i => full_rounds >>> i) 10 state
  let state := push (fun i => part_rounds >>> i) 10 state
  let state := for_down (fun _ state => set_new_bit lfsr_state_bits state true) 30 state
  state

/-- The function `get_lfsr_init_state` (poseidon_lfsr.hpp, lines 66-87). -/
def get_lfsr_init_state (word_bits state_words full_rounds part_rounds : Nat) : Nat :=
  update_lfsr_state_raw^[160] (lfsr_pre_idle_state word_bits state_words full_rounds part_rounds)

/-- Bit of a register value at position `p`, positions numbered from
0 = most significant to 79 = least significant. -/
def bit_at (state p : Nat) : Bool := state.testBit (79 - p)

/-- Spec side of the feedback: the exclusive or of the register bits at the tap
positions 0, 13, 23, 38, 51 and 62. -/
def tap_xor (state : Nat) : Bool :=
  xor (bit_at state 0) (xor (bit_at state 13) (xor (bit_at state 23)
    (xor (bit_at state 38) (xor (bit_at state 51) (bit_at state 62)))))

/-- Spec side of the initial-state encoding: the fields written most
significant first, i.e. the 6 indicator bits `010001`, then `word_bits` and
`state_words` on 12 bits each, `full_rounds` and `part_rounds` on 10 bits each,
then 30 ones. -/
def encoded_parameters (word_bits state_words full_rounds part_rounds : Nat) : Nat :=
  ((((17 * 2 ^ 12 + word_bits % 2 ^ 12) * 2 ^ 12 + state_words % 2 ^ 12) * 2 ^ 10
    + full_rounds % 2 ^ 10) * 2 ^ 10 + part_rounds % 2 ^ 10) * 2 ^ 30 + (2 ^ 30 - 1)

/-- Bit of weight `2 ^ 79` of a register value: its most significant bit. -/
def msb (state : Nat) : Bool := state.testBit 79

/-- Bit of weight `2 ^ 0` of a register value: its least significant bit. -/
def lsb (state : Nat) : Bool := state.testBit 0

/-- Spec side of the acceptance rule as the claim words it: `r` is one raw
advance of the first state in `raw(s), raw(raw(s)), ...` whose most significant
bit is 1. -/
def AcceptsOnFirstMsb (s r : Nat) : Prop :=
  ∃ n, (∀ m < n, msb (update_lfsr_state_raw^[m + 1] s) = false) ∧
    msb (update_lfsr_state_raw^[n + 1] s) = true ∧
    r = update_lfsr_state_raw (update_lfsr_state_raw^[n + 1] s)

/-- The acceptance rule of the code: `r` is one raw advance of the first state
among `raw(s), raw^3(s), raw^5(s), ...` (the states after an odd number of raw
advances) whose least significant bit is 1. -/
def AcceptsOnOddLsb (s r : Nat) : Prop :=
  ∃ k, (∀ j < k, lsb (update_lfsr_state_raw^[2 * j + 1] s) = false) ∧
    lsb (update_lfsr_state_raw^[2 * k + 1] s) = true ∧
    r = update_lfsr_state_raw (update_lfsr_state_raw^[2 * k + 1] s)

/-! ### Round constants -/

/-- The body of the bit loop of `generate_round_constants` (poseidon_lfsr.hpp,
lines 54-56) on the pair `(lfsr_state, constant)`: one filtered advance, then
the bit at position `lfsr_state_bits - 1` is pushed into `constant`, a
`modulus_type` of `modulus_bits` bits.  It is `none` when `update_lfsr_state`
does not return within `fuel` iterations of its loop. -/
def candidate_bit_step (fuel modulus_bits : Nat) (st : Nat × Nat) : Option (Nat × Nat) :=
  match update_lfsr_state fuel st.1 with
  | none => none
  | some lfsr_state =>
    some (lfsr_state,
      set_new_bit modulus_bits st.2 (get_lfsr_state_bit lfsr_state (lfsr_state_bits - 1)))

/-- The loop `for (i = 0; i < word_bits; i++)` of `generate_round_constants`
(poseidon_lfsr.hpp, lines 53-57), run `n` times from `(lfsr_state, constant)`. -/
def candidate_loop (fuel modulus_bits : Nat) : Nat → Nat × Nat → Option (Nat × Nat)
  | 0, st => some st
  | n + 1, st =>
    match candidate_bit_step fuel modulus_bits st with
    | none => none
    | some st => candidate_loop fuel modulus_bits n st

/-- The loop `while (true)` of `generate_round_constants` (poseidon_lfsr.hpp,
lines 51-62) run for at most `tries` candidates: the pair
`(lfsr_state, constant)` at the `break`. -/
def sample_loop (fuel modulus_bits word_bits modulus : Nat) : Nat → Nat → Option (Nat × Nat)
  | 0, _ => none
  | tries + 1, lfsr_state =>
    match candidate_loop fuel modulus_bits word_bits (lfsr_state, 0) with
    | none => none
    | some (lfsr_state, constant) =>
      if constant < modulus then some (lfsr_state, constant)
      else sample_loop fuel modulus_bits word_bits modulus tries lfsr_state

/-- The outer loop of `generate_round_constants` (poseidon_lfsr.hpp, lines
50-63) run `n` times from `(lfsr_state, round_constants)`; the store
`round_constants[i] = element_type(constant)` at the successive indices
`i = 0, 1, ...` appends the integer `constant` to the table. -/
def constants_loop (fuel modulus_bits word_bits modulus : Nat) :
    Nat → Nat × List Nat → Option (Nat × List Nat)
  | 0, st => some st
  | n + 1, (lfsr_state, round_constants) =>
    match sample_loop fuel modulus_bits word_bits modulus fuel lfsr_state with
    | none => none
    | some (lfsr_state, constant) =>
      constants_loop fuel modulus_bits word_bits modulus n
        (lfsr_state, round_constants ++ [constant])

/-- The function `generate_round_constants` (poseidon_lfsr.hpp, lines 46-64):
the table of integers it stores, with both of its unbounded loops cut at
`fuel` iterations (`none` when one of them does not finish). -/
def generate_round_constants (fuel modulus_bits modulus word_bits state_words full_rounds
    part_rounds : Nat) : Option (List Nat) :=
  (constants_loop fuel modulus_bits word_bits modulus ((full_rounds + part_rounds) * state_words)
    (get_lfsr_init_state word_bits state_words full_rounds part_rounds, [])).map (·.2)

/-- Spec side of the rejection sampling: the first `k` candidates of the one
continuing stream that starts in `lfsr_state`, each consuming `word_bits`
filtered advances from the state left by the previous one, together with the
state left by the last. -/
def candidate_stream (fuel modulus_bits word_bits : Nat) : Nat → Nat → Option (Nat × List Nat)
  | 0, lfsr_state => some (lfsr_state, [])
  | k + 1, lfsr_state =>
    match candidate_loop fuel modulus_bits word_bits (lfsr_state, 0) with
    | none => none
    | some (lfsr_state, c) =>
      (candidate_stream fuel modulus_bits word_bits k lfsr_state).map
        (fun r => (r.1, c :: r.2))

/-- Spec side of the candidate assembly: the states after the 1st, ..., `n`-th
filtered advance from `lfsr_state`. -/
def filtered_states (fuel : Nat) : Nat → Nat → Option (List Nat)
  | 0, _ => some []
  | n + 1, lfsr_state =>
    match update_lfsr_state fuel lfsr_state with
    | none => none
    | some s => (filtered_states fuel n s).map (s :: ·)

/-- Spec side of the candidate assembly: the value of the bits `o_0, o_1, ...`
read first bit most significant, the sum of `o_j * 2 ^ (n - 1 - j)`. -/
def msb_first_sum (bits : List Bool) : Nat :=
  ((List.range bits.length).map
    (fun j => (bits.getD j false).toNat * 2 ^ (bits.length - 1 - j))).sum

/-- The bit `(1 >> i) & 1` that the two indicator loops of `get_lfsr_init_state`
push at iteration `i` (poseidon_lfsr.hpp, lines 69-72). -/
def indicator_bit (i : Nat) : Bool := ((1 >>> i) &&& 1) != 0

end poseidon_lfsr

/-! # Theorems -/

/-! ## Lemmas on masks and blocks -/

theorem testBit_high_mask (W n i : Nat) :
    ((all_ones W <<< (W - n)) % 2 ^ W).testBit i = (decide (i < W) && decide (W - n ≤ i)) := by
  simp only [all_ones, Nat.testBit_mod_two_pow, Nat.testBit_shiftLeft,
    Nat.testBit_two_pow_sub_one]
  by_cases h1 : i < W <;> by_cases h2 : W - n ≤ i <;> simp [h1, h2]
  omega

theorem testBit_high_bits (W x n i : Nat) :
    (high_bits W x n).testBit i = (x.testBit i && (decide (i < W) && decide (W - n ≤ i))) := by
  simp only [high_bits, Nat.testBit_and, testBit_high_mask]

theorem Block.rd_wr (b : Block) (i v j : Nat) :
    (b.wr i v).rd j = if i = j ∧ i < b.length then v else b.rd j := by
  unfold Block.rd Block.wr
  simp only [List.getD_eq_getElem?_getD, List.getElem?_set]
  by_cases h : i = j
  · subst h
    by_cases hl : i < b.length
    · simp [hl]
    · simp [hl, List.getElem?_eq_none (Nat.le_of_not_lt hl)]
  · simp [h]

theorem Block.length_wr (b : Block) (i v : Nat) : (b.wr i v).length = b.length := by
  simp [Block.wr]

theorem inject_bubb_rd (W BB w ws : Nat) (b : Block) (bs j : Nat) (hg : bs + ws ≤ BB) :
    (word_injector.inject_big_unit_big_bit W BB w ws b bs).1.rd j =
      if bs % W + ws > W ∧ j = bs / W + 1 ∧ bs / W + 1 < b.length then
        (high_bits W w ws <<< (W - bs % W)) % 2 ^ W
      else if j = bs / W ∧ bs / W < b.length then
        high_bits W (b.rd (bs / W)) (bs % W) ||| (high_bits W w ws >>> (bs % W))
      else b.rd j := by
  unfold word_injector.inject_big_unit_big_bit
  simp only [hg, if_true]
  by_cases hs : bs % W + ws > W
  · simp only [hs, if_true, Block.rd_wr, Block.length_wr, true_and]
    by_cases h1 : bs / W + 1 = j
    · subst h1
      by_cases h2 : bs / W + 1 < b.length
      · simp [h2]
      · have : ¬ (bs / W < b.length) ∨ bs / W < b.length := by omega
        simp [h2]
    · have h1' : ¬ (j = bs / W + 1) := fun h => h1 h.symm
      simp only [h1, h1', false_and, if_false]
      by_cases h3 : bs / W = j
      · subst h3
        by_cases h4 : bs / W < b.length <;> simp [h4]
      · have h3' : ¬ (j = bs / W) := fun h => h3 h.symm
        simp [h3, h3']
  · simp only [hs, if_false, Block.rd_wr, Block.length_wr, false_and]
    by_cases h3 : bs / W = j
    · subst h3
      by_cases h4 : bs / W < b.length <;> simp [h4]
    · have h3' : ¬ (j = bs / W) := fun h => h3 h.symm
      simp [h3, h3']

theorem inject_bubb_length (W BB w ws : Nat) (b : Block) (bs : Nat) :
    (word_injector.inject_big_unit_big_bit W BB w ws b bs).1.length = b.length := by
  unfold word_injector.inject_big_unit_big_bit
  by_cases hg : bs + ws ≤ BB
  · simp only [hg, if_true]
    split <;> simp [Block.length_wr]
  · simp [hg]

theorem inject_bubb_cursor (W BB w ws : Nat) (b : Block) (bs : Nat) :
    (word_injector.inject_big_unit_big_bit W BB w ws b bs).2 =
      if bs + ws ≤ BB then bs + ws else bs := by
  unfold word_injector.inject_big_unit_big_bit
  by_cases hg : bs + ws ≤ BB <;> simp [hg]

theorem div_mod_of_eq (W q r n : Nat) (h : n = W * q + r) (hr : r < W) :
    n / W = q ∧ n % W = r := by
  have hW : 0 < W := by omega
  subst h
  constructor
  · rw [Nat.mul_add_div hW, Nat.div_eq_of_lt hr]; rfl
  · rw [Nat.mul_add_mod, Nat.mod_eq_of_lt hr]

theorem index_lt_of_le (W BW bs ws : Nat) (h1 : 1 ≤ ws) (h3 : bs + ws ≤ BW * W) :
    bs / W < BW := by
  apply Nat.div_lt_of_lt_mul
  rw [Nat.mul_comm]; omega

theorem next_index_lt_of_le (W BW bs ws : Nat) (hs : bs % W + ws > W)
    (h3 : bs + ws ≤ BW * W) : bs / W + 1 < BW := by
  have hdm := Nat.div_add_mod bs W
  have hlt : W * (bs / W + 1) < W * BW := by
    rw [Nat.mul_add, Nat.mul_one, Nat.mul_comm W BW]; omega
  exact Nat.lt_of_mul_lt_mul_left hlt

/-- Word level effect of the `big_unit_big_bit` injector on the stream bits it
writes. -/
theorem inject_bubb_written (W BW w ws : Nat) (b : Block) (bs : Nat)
    (hlen : b.length = BW) (h1 : 1 ≤ ws) (h2 : ws ≤ W) (h3 : bs + ws ≤ BW * W)
    (j : Nat) (hj : j < ws) :
    streamBitBB W (word_injector.inject_big_unit_big_bit W (BW * W) w ws b bs).1 (bs + j)
      = w.testBit (W - 1 - j) := by
  have hr : bs % W < W := Nat.mod_lt _ (by omega)
  have hdm := Nat.div_add_mod bs W
  have hi : bs / W < b.length := hlen ▸ index_lt_of_le W BW bs ws h1 h3
  unfold streamBitBB
  rw [inject_bubb_rd W (BW * W) w ws b bs _ h3]
  by_cases hc : bs % W + j < W
  · obtain ⟨hq, hm⟩ := div_mod_of_eq W (bs / W) (bs % W + j) (bs + j) (by omega) hc
    rw [hq, hm]
    have hne : ¬ (bs / W = bs / W + 1) := by omega
    simp only [hne, false_and, and_false, if_false, hi, and_self, if_true, Nat.testBit_or,
      testBit_high_bits, Nat.testBit_shiftRight]
    have e1 : bs % W + (W - 1 - (bs % W + j)) = W - 1 - j := by omega
    have d1 : ¬ (W - bs % W ≤ W - 1 - (bs % W + j)) := by omega
    have d2 : W - 1 - j < W := by omega
    have d3 : W - ws ≤ W - 1 - j := by omega
    simp [e1, d1, d2, d3]
  · have hs : bs % W + ws > W := by omega
    have hi1 : bs / W + 1 < b.length := hlen ▸ next_index_lt_of_le W BW bs ws hs h3
    obtain ⟨hq, hm⟩ := div_mod_of_eq W (bs / W + 1) (bs % W + j - W) (bs + j)
      (by rw [Nat.mul_add, Nat.mul_one]; omega) (by omega)
    rw [hq, hm]
    simp only [hs, hi1, and_self, if_true, Nat.testBit_mod_two_pow, Nat.testBit_shiftLeft,
      testBit_high_bits]
    have e1 : W - 1 - (bs % W + j - W) - (W - bs % W) = W - 1 - j := by omega
    have d1 : W - 1 - (bs % W + j - W) < W := by omega
    have d2 : W - 1 - (bs % W + j - W) ≥ W - bs % W := by omega
    have d3 : W - 1 - j < W := by omega
    have d4 : W - ws ≤ W - 1 - j := by omega
    simp [e1, d1, d2, d3, d4]

/-- Word level frame of the `big_unit_big_bit` injector: stream bits before the
cursor keep their value. -/
theorem inject_bubb_earlier (W BB w ws : Nat) (b : Block) (bs : Nat) (hW : 0 < W)
    (k : Nat) (hk : k < bs) :
    streamBitBB W (word_injector.inject_big_unit_big_bit W BB w ws b bs).1 k
      = streamBitBB W b k := by
  by_cases hg : bs + ws ≤ BB
  · unfold streamBitBB
    rw [inject_bubb_rd W BB w ws b bs _ hg]
    have hkm : k % W < W := Nat.mod_lt _ hW
    have hle : k / W ≤ bs / W := Nat.div_le_div_right (Nat.le_of_lt hk)
    have hne : ¬ (k / W = bs / W + 1) := by omega
    simp only [hne, false_and, and_false, if_false]
    by_cases hq : k / W = bs / W
    · by_cases hi : bs / W < b.length
      · have hdk := Nat.div_add_mod k W
        have hdb := Nat.div_add_mod bs W
        have hlt : k % W < bs % W := by rw [hq] at hdk; omega
        simp only [hq, hi, and_self, if_true, Nat.testBit_or, testBit_high_bits,
          Nat.testBit_shiftRight]
        have d1 : W - 1 - k % W < W := by omega
        have d2 : W - bs % W ≤ W - 1 - k % W := by omega
        have d3 : ¬ (bs % W + (W - 1 - k % W) < W) := by omega
        simp [d1, d2, d3]
      · simp [hq, hi]
    · simp [hq]
  · unfold word_injector.inject_big_unit_big_bit
    simp [hg]

/-! ## Word injector, `big_unit_big_bit` -/

/-- C1: for the `big_unit_big_bit` word injector, with stream bits numbered
most significant first, whenever `1 ≤ word_seen ≤ WordBits` and
`block_seen + word_seen ≤ BlockBits = BlockWords * WordBits`, after `inject`
stream bit `block_seen + j` of the block is the `j`-th most significant bit of
`w` for every `j < word_seen`, and the cursor is `block_seen + word_seen`. -/
theorem big_unit_big_bit_inject_writes_top_bits (W BW w ws : Nat) (b : Block) (bs : Nat)
    (hlen : b.length = BW) (h1 : 1 ≤ ws) (h2 : ws ≤ W) (h3 : bs + ws ≤ BW * W) :
    (∀ j, j < ws →
      streamBitBB W (word_injector.inject_big_unit_big_bit W (BW * W) w ws b bs).1 (bs + j)
        = w.testBit (W - 1 - j)) ∧
    (word_injector.inject_big_unit_big_bit W (BW * W) w ws b bs).2 = bs + ws := by
  refine ⟨fun j hj => inject_bubb_written W BW w ws b bs hlen h1 h2 h3 j hj, ?_⟩
  rw [inject_bubb_cursor, if_pos h3]

theorem big_unit_big_bit_inject_writes_top_bits_witness :
    streamBitBB 8 (word_injector.inject_big_unit_big_bit 8 (2 * 8) 0xB5 5 [0xFF, 0xFF] 6).1
        (6 + 2) = Nat.testBit 0xB5 (8 - 1 - 2) ∧
    (word_injector.inject_big_unit_big_bit 8 (2 * 8) 0xB5 5 [0xFF, 0xFF] 6).2 = 6 + 5 :=
  ⟨(big_unit_big_bit_inject_writes_top_bits 8 2 0xB5 5 [0xFF, 0xFF] 6 rfl (by decide)
      (by decide) (by decide)).1 2 (by decide),
   (big_unit_big_bit_inject_writes_top_bits 8 2 0xB5 5 [0xFF, 0xFF] 6 rfl (by decide)
      (by decide) (by decide)).2⟩

/-- C6: invariant I2 for `big_unit_big_bit`.  Whenever
`1 ≤ word_seen ≤ WordBits` and `block_seen + word_seen ≤ BlockBits`, `inject`
leaves every stream bit `k < block_seen` unchanged, leaves every word unchanged
whose index is neither `i = block_seen / WordBits` nor `i + 1`, and leaves word
`i + 1` unchanged when `block_seen mod WordBits + word_seen ≤ WordBits`; the
block keeps its length. -/
theorem big_unit_big_bit_inject_frame (W BB w ws : Nat) (b : Block) (bs : Nat)
    (h1 : 1 ≤ ws) (h2 : ws ≤ W) (h3 : bs + ws ≤ BB) :
    (∀ k, k < bs →
      streamBitBB W (word_injector.inject_big_unit_big_bit W BB w ws b bs).1 k
        = streamBitBB W b k) ∧
    (∀ j, j ≠ bs / W → j ≠ bs / W + 1 →
      (word_injector.inject_big_unit_big_bit W BB w ws b bs).1.rd j = b.rd j) ∧
    (bs % W + ws ≤ W →
      (word_injector.inject_big_unit_big_bit W BB w ws b bs).1.rd (bs / W + 1)
        = b.rd (bs / W + 1)) ∧
    (word_injector.inject_big_unit_big_bit W BB w ws b bs).1.length = b.length := by
  refine ⟨fun k hk => inject_bubb_earlier W BB w ws b bs (by omega) k hk, ?_, ?_,
    inject_bubb_length W BB w ws b bs⟩
  · intro j hj1 hj2
    rw [inject_bubb_rd W BB w ws b bs j h3]
    simp [hj1, hj2]
  · intro hns
    rw [inject_bubb_rd W BB w ws b bs _ h3]
    have h : ¬ (bs % W + ws > W) := by omega
    simp [h]

theorem big_unit_big_bit_inject_frame_witness :
    streamBitBB 8 (word_injector.inject_big_unit_big_bit 8 24 0xB5 2 [0x5A, 0xC3, 0x3C] 3).1 1
        = streamBitBB 8 [0x5A, 0xC3, 0x3C] 1 ∧
    (word_injector.inject_big_unit_big_bit 8 24 0xB5 2 [0x5A, 0xC3, 0x3C] 3).1.rd 2
        = Block.rd [0x5A, 0xC3, 0x3C] 2 ∧
    (word_injector.inject_big_unit_big_bit 8 24 0xB5 2 [0x5A, 0xC3, 0x3C] 3).1.rd (3 / 8 + 1)
        = Block.rd [0x5A, 0xC3, 0x3C] (3 / 8 + 1) ∧
    (word_injector.inject_big_unit_big_bit 8 24 0xB5 2 [0x5A, 0xC3, 0x3C] 3).1.length
      = List.length [0x5A, 0xC3, 0x3C] :=
  ⟨(big_unit_big_bit_inject_frame 8 24 0xB5 2 [0x5A, 0xC3, 0x3C] 3 (by decide) (by decide)
      (by decide)).1 1 (by decide),
   (big_unit_big_bit_inject_frame 8 24 0xB5 2 [0x5A, 0xC3, 0x3C] 3 (by decide) (by decide)
      (by decide)).2.1 2 (by decide) (by decide),
   (big_unit_big_bit_inject_frame 8 24 0xB5 2 [0x5A, 0xC3, 0x3C] 3 (by decide) (by decide)
      (by decide)).2.2.1 (by decide),
   (big_unit_big_bit_inject_frame 8 24 0xB5 2 [0x5A, 0xC3, 0x3C] 3 (by decide) (by decide)
      (by decide)).2.2.2⟩

/-! ## Cursor and saturation, all conventions -/

/-- The cursor the caller sees after a word injection: advanced by `word_seen`
for `big_unit_big_bit` when the guard passes, unchanged in every other case. -/
theorem word_inject_cursor (e : Endianness) (W BB w ws : Nat) (b : Block) (bs : Nat) :
    (word_injector.inject e W BB w ws b bs).2 =
      match e with
      | .big_unit_big_bit _ => if bs + ws ≤ BB then bs + ws else bs
      | _ => bs := by
  cases e with
  | big_unit_big_bit u => exact inject_bubb_cursor W BB w ws b bs
  | little_unit_big_bit u =>
    simp only [word_injector.inject, word_injector.inject_little_unit_big_bit]
    split <;> rfl
  | big_unit_little_bit u =>
    simp only [word_injector.inject, word_injector.inject_big_unit_little_bit]
    split <;> rfl
  | little_unit_little_bit u =>
    simp only [word_injector.inject, word_injector.inject_little_unit_little_bit]
    split <;> rfl

/-- A word injection whose guard fails changes nothing. -/
theorem word_inject_saturated (e : Endianness) (W BB w ws : Nat) (b : Block) (bs : Nat)
    (h : BB < bs + ws) : word_injector.inject e W BB w ws b bs = (b, bs) := by
  have hg : ¬ (bs + ws ≤ BB) := by omega
  cases e <;>
    simp [word_injector.inject, word_injector.inject_big_unit_big_bit,
      word_injector.inject_little_unit_big_bit, word_injector.inject_big_unit_little_bit,
      word_injector.inject_little_unit_little_bit, hg]

/-- C2, the code at the failing input: the three injectors that take the cursor
by value (`little_unit_big_bit`, `big_unit_little_bit`, `little_unit_little_bit`)
write the word `0xFF` into the empty block at cursor 0 and leave the caller's
cursor at 0 instead of 8, while `big_unit_big_bit` advances it to 8. -/
theorem by_value_cursor_not_advanced :
    word_injector.inject (.little_unit_little_bit 8) 8 16 0xFF 8 [0, 0] 0 = ([0xFF, 0], 0) ∧
    word_injector.inject (.little_unit_big_bit 8) 8 16 0xFF 8 [0, 0] 0 = ([0xFF, 0], 0) ∧
    word_injector.inject (.big_unit_little_bit 8) 8 16 0xFF 8 [0, 0] 0 = ([0xFF, 0], 0) ∧
    word_injector.inject (.big_unit_big_bit 8) 8 16 0xFF 8 [0, 0] 0 = ([0xFF, 0], 8) := by
  decide

theorem word_inject_cursor_bounds (e : Endianness) (W BB w ws : Nat) (b : Block) (bs : Nat)
    (h : bs ≤ BB) :
    bs ≤ (word_injector.inject e W BB w ws b bs).2 ∧
      (word_injector.inject e W BB w ws b bs).2 ≤ BB := by
  have hc := word_inject_cursor e W BB w ws b bs
  cases e with
  | big_unit_big_bit u =>
    simp only at hc
    rw [hc]
    by_cases hg : bs + ws ≤ BB
    · rw [if_pos hg]; omega
    · rw [if_neg hg]; omega
  | little_unit_big_bit u => simp only at hc; rw [hc]; exact ⟨Nat.le_refl _, h⟩
  | big_unit_little_bit u => simp only at hc; rw [hc]; exact ⟨Nat.le_refl _, h⟩
  | little_unit_little_bit u => simp only at hc; rw [hc]; exact ⟨Nat.le_refl _, h⟩

/-- A run of word injections, whatever words and bit counts it injects, keeps
the cursor between its old value and `BlockBits`. -/
theorem foldl_inject_cursor_bounds (e : Endianness) (W BB : Nat) (word count : Nat → Nat)
    (l : List Nat) (st : Block × Nat) (h : st.2 ≤ BB) :
    st.2 ≤ (l.foldl (fun st i => injector.inject_word e W BB (word i) (count i) st.1 st.2)
        st).2 ∧
      (l.foldl (fun st i => injector.inject_word e W BB (word i) (count i) st.1 st.2)
        st).2 ≤ BB := by
  induction l generalizing st with
  | nil => exact ⟨Nat.le_refl _, h⟩
  | cons i l ih =>
    simp only [List.foldl_cons]
    have hb := word_inject_cursor_bounds e W BB (word i) (count i) st.1 st.2 h
    have := ih (injector.inject_word e W BB (word i) (count i) st.1 st.2) hb.2
    exact ⟨Nat.le_trans hb.1 this.1, this.2⟩

/-! ## Cursor and saturation in `std::size_t` arithmetic -/

theorem size_t.add_eq_of_lt (a b : Nat) (h : a + b < 2 ^ size_t.bits) :
    size_t.add a b = a + b :=
  Nat.mod_eq_of_lt h

/-- A word injection whose reduced guard sum exceeds `BlockBits` changes
nothing. -/
theorem size_t_word_inject_guard_fails (e : Endianness) (W BB w ws : Nat) (b : Block)
    (bs : Nat) (h : BB < size_t.add bs ws) :
    size_t.word_injector.inject e W BB w ws b bs = (b, bs) := by
  have hg : ¬ (size_t.add bs ws ≤ BB) := by omega
  cases e <;>
    simp [size_t.word_injector.inject, size_t.word_injector.inject_big_unit_big_bit,
      size_t.word_injector.inject_little_unit_big_bit,
      size_t.word_injector.inject_big_unit_little_bit,
      size_t.word_injector.inject_little_unit_little_bit, hg]

/-- As long as no sum leaves the range of `std::size_t`, the word injector with
reduced sums is the word injector with sums of natural numbers. -/
theorem size_t_word_inject_eq (e : Endianness) (W BB w ws : Nat) (b : Block) (bs : Nat)
    (hw : bs + ws < 2 ^ size_t.bits) (hi : bs / W + 1 < 2 ^ size_t.bits) :
    size_t.word_injector.inject e W BB w ws b bs = word_injector.inject e W BB w ws b bs := by
  have h1 : size_t.add bs ws = bs + ws := size_t.add_eq_of_lt _ _ hw
  have h2 : size_t.add (bs % W) ws = bs % W + ws :=
    size_t.add_eq_of_lt _ _ (Nat.lt_of_le_of_lt (Nat.add_le_add_right (Nat.mod_le bs W) ws) hw)
  have h3 : size_t.add (bs / W) 1 = bs / W + 1 := size_t.add_eq_of_lt _ _ hi
  cases e <;>
    simp only [size_t.word_injector.inject, size_t.word_injector.inject_big_unit_big_bit,
      size_t.word_injector.inject_little_unit_big_bit,
      size_t.word_injector.inject_big_unit_little_bit,
      size_t.word_injector.inject_little_unit_little_bit, word_injector.inject,
      word_injector.inject_big_unit_big_bit, word_injector.inject_little_unit_big_bit,
      word_injector.inject_big_unit_little_bit, word_injector.inject_little_unit_little_bit,
      h1, h2, h3]

/-- C3, as the claim states it, fails: with 8-bit words and a block of 16 bits,
`block_seen = 1` and `word_seen = 2 ^ 64 - 1` have `block_seen + word_seen >
BlockBits`, but the sum of the guard is reduced to `0`, the guard passes and
`big_unit_big_bit` sets the cursor to `0`. -/
theorem saturation_fails_when_sum_wraps :
    16 < 1 + (2 ^ 64 - 1) ∧
    (size_t.word_injector.inject (.big_unit_big_bit 8) 8 16 0xFF (2 ^ 64 - 1)
      [0xAB, 0xCD] 1).2 = 0 ∧
    size_t.word_injector.inject (.big_unit_big_bit 8) 8 16 0xFF (2 ^ 64 - 1) [0xAB, 0xCD] 1
      ≠ ([0xAB, 0xCD], 1) := by
  decide

/-- C3, amended: saturation for sums in the range of `std::size_t`.  For each
of the four word injectors, if `block_seen + word_seen > BlockBits` and
`block_seen + word_seen < 2 ^ 64`, then `inject` leaves the block and the
cursor unchanged; for the block injector, if `src_seen + dst_seen > BlockBits`
and `src_seen + dst_seen < 2 ^ 64`, then `inject` leaves `dst` and the cursor
`dst_seen` unchanged. -/
theorem inject_saturation_in_range (e : Endianness) (W BB w ws : Nat) (b : Block) (bs : Nat)
    (src : Block) (src_seen : Nat) (dst : Block) (dst_seen : Nat) :
    (BB < bs + ws → bs + ws < 2 ^ size_t.bits →
      size_t.word_injector.inject e W BB w ws b bs = (b, bs)) ∧
    (BB < src_seen + dst_seen → src_seen + dst_seen < 2 ^ size_t.bits →
      size_t.injector.inject e W BB src src_seen dst dst_seen = (dst, dst_seen)) := by
  refine ⟨fun h hw => ?_, fun h hw => ?_⟩
  · apply size_t_word_inject_guard_fails
    rw [size_t.add_eq_of_lt _ _ hw]
    exact h
  · have hg : ¬ (size_t.add src_seen dst_seen ≤ BB) := by
      rw [size_t.add_eq_of_lt _ _ hw]
      omega
    simp [size_t.injector.inject, hg]

theorem inject_saturation_in_range_witness :
    size_t.word_injector.inject (.big_unit_little_bit 8) 8 16 0xA7 8 [0x12, 0x34] 9
      = ([0x12, 0x34], 9) ∧
    size_t.injector.inject (.big_unit_little_bit 8) 8 16 [0xA7, 0x5C] 12 [0x12, 0x34] 5
      = ([0x12, 0x34], 5) :=
  ⟨(inject_saturation_in_range (.big_unit_little_bit 8) 8 16 0xA7 8 [0x12, 0x34] 9
      [0xA7, 0x5C] 12 [0x12, 0x34] 5).1 (by decide) (by decide),
   (inject_saturation_in_range (.big_unit_little_bit 8) 8 16 0xA7 8 [0x12, 0x34] 9
      [0xA7, 0x5C] 12 [0x12, 0x34] 5).2 (by decide) (by decide)⟩

/-- The `for` loop of the block injector is the run of successive word
injections. -/
theorem foldl_range_eq_successive (e : Endianness) (W BB : Nat) (src : Block) (N : Nat)
    (st : Block × Nat) :
    (List.range N).foldl
        (fun st i => injector.inject_word e W BB (src.rd i) W st.1 st.2) st
      = successive_word_injections e W BB src N st := by
  induction N with
  | zero => rfl
  | succ n ih =>
    rw [List.range_succ, List.foldl_append, ih]
    rfl

/-- The block injector, when its guard passes, is the word-by-word injection of
`src_seen / WordBits` full words and the remainder. -/
theorem block_inject_eq_word_by_word (e : Endianness) (W BB : Nat) (src : Block)
    (src_seen : Nat) (dst : Block) (dst_seen : Nat) (hg : src_seen + dst_seen ≤ BB) :
    injector.inject e W BB src src_seen dst dst_seen
      = word_by_word e W BB src (src_seen / W) (src_seen % W) (dst, dst_seen) := by
  unfold injector.inject word_by_word
  simp only [hg, if_true, foldl_range_eq_successive]
  by_cases hr : src_seen % W = 0
  · simp [hr]
  · have : 0 < src_seen % W := Nat.pos_of_ne_zero hr
    simp [hr, this]

/-- C5: composability.  For every convention, every source block and every
`N`, `r` with `r < WordBits` and `N * WordBits + r ≤ BlockBits`, block-injecting
the first `N * WordBits + r` bits of `src` into an all-zero destination with
cursor 0 gives the same block and cursor as `N` successive full-word
injections of `src[0..N-1]` followed, when `r > 0`, by the `r`-bit injection
of `src[N]`, from the same all-zero block and cursor 0. -/
theorem block_inject_composable (e : Endianness) (W BW BB : Nat) (src : Block) (N r : Nat)
    (hr : r < W) (h : N * W + r ≤ BB) :
    injector.inject e W BB src (N * W + r) (List.replicate BW 0) 0
      = word_by_word e W BB src N r (List.replicate BW 0, 0) := by
  have hW : 0 < W := by omega
  have hd : (N * W + r) / W = N := by
    rw [Nat.add_comm, Nat.add_mul_div_right _ _ hW, Nat.div_eq_of_lt hr, Nat.zero_add]
  have hm : (N * W + r) % W = r := by
    rw [Nat.add_comm, Nat.add_mul_mod_self_right, Nat.mod_eq_of_lt hr]
  rw [block_inject_eq_word_by_word e W BB src (N * W + r) _ 0 (by omega), hd, hm]

theorem block_inject_composable_witness :
    injector.inject (.little_unit_big_bit 8) 8 24 [0xA7, 0x5C, 0xE1] (2 * 8 + 3)
        (List.replicate 3 0) 0
      = word_by_word (.little_unit_big_bit 8) 8 24 [0xA7, 0x5C, 0xE1] 2 3
        (List.replicate 3 0, 0) :=
  block_inject_composable (.little_unit_big_bit 8) 8 3 24 [0xA7, 0x5C, 0xE1] 2 3 (by decide)
    (by decide)

/-- Invariant of the full-word loop of the `big_unit_big_bit` block injector:
after `n` words the cursor has advanced by `n * WordBits`, the block keeps its
length, the bits before the old cursor are untouched and the `n * WordBits`
bits after it are the first bits of the source. -/
theorem successive_bubb_invariant (u W BW : Nat) (src dst : Block) (dst_seen : Nat)
    (hW : 0 < W) (hlen : dst.length = BW) (n : Nat) (hn : dst_seen + n * W ≤ BW * W) :
    (successive_word_injections (.big_unit_big_bit u) W (BW * W) src n (dst, dst_seen)).2
        = dst_seen + n * W ∧
    (successive_word_injections (.big_unit_big_bit u) W (BW * W) src n (dst, dst_seen)).1.length
        = BW ∧
    (∀ k, k < dst_seen →
      streamBitBB W
        (successive_word_injections (.big_unit_big_bit u) W (BW * W) src n (dst, dst_seen)).1 k
        = streamBitBB W dst k) ∧
    (∀ j, j < n * W →
      streamBitBB W
        (successive_word_injections (.big_unit_big_bit u) W (BW * W) src n (dst, dst_seen)).1
        (dst_seen + j) = streamBitBB W src j) := by
  induction n with
  | zero =>
    refine ⟨by simp [successive_word_injections], hlen, fun k _ => rfl, fun j hj => ?_⟩
    omega
  | succ n ih =>
    have hsucc : (n + 1) * W = n * W + W := Nat.succ_mul n W
    obtain ⟨hc, hl, hpre, hsrc⟩ := ih (by omega)
    simp only [successive_word_injections, injector.inject_word, word_injector.inject]
    generalize successive_word_injections (.big_unit_big_bit u) W (BW * W) src n
      (dst, dst_seen) = st at hc hl hpre hsrc
    have hguard : st.2 + W ≤ BW * W := by omega
    refine ⟨?_, ?_, fun k hk => ?_, fun j hj => ?_⟩
    · rw [inject_bubb_cursor, if_pos hguard]; omega
    · rw [inject_bubb_length]; exact hl
    · rw [inject_bubb_earlier W (BW * W) _ W st.1 st.2 hW k (by omega)]
      exact hpre k hk
    · by_cases hlt : j < n * W
      · rw [inject_bubb_earlier W (BW * W) _ W st.1 st.2 hW (dst_seen + j) (by omega)]
        exact hsrc j hlt
      · have hj' : dst_seen + j = st.2 + (j - n * W) := by omega
        rw [hj', inject_bubb_written W BW _ W st.1 st.2 hl hW (Nat.le_refl _) hguard
          (j - n * W) (by omega)]
        obtain ⟨hq, hm⟩ := div_mod_of_eq W n (j - n * W) j
          (by rw [Nat.mul_comm W n]; omega) (by omega)
        unfold streamBitBB
        rw [hq, hm]

/-- C4: block injector, `big_unit_big_bit`.  With stream bits numbered most
significant first within each word and words in index order, whenever
`src_seen + dst_seen ≤ BlockBits = BlockWords * WordBits`, after
`inject(src, src_seen, dst, dst_seen)` stream bit `dst_seen + j` of `dst` is
stream bit `j` of `src` for every `j < src_seen`, every stream bit
`k < dst_seen` of `dst` is unchanged, and the cursor is `dst_seen + src_seen`. -/
theorem big_unit_big_bit_block_inject (u W BW : Nat) (src : Block) (src_seen : Nat)
    (dst : Block) (dst_seen : Nat) (hlen : dst.length = BW)
    (hg : src_seen + dst_seen ≤ BW * W) :
    (∀ j, j < src_seen →
      streamBitBB W
        (injector.inject (.big_unit_big_bit u) W (BW * W) src src_seen dst dst_seen).1
        (dst_seen + j) = streamBitBB W src j) ∧
    (∀ k, k < dst_seen →
      streamBitBB W
        (injector.inject (.big_unit_big_bit u) W (BW * W) src src_seen dst dst_seen).1 k
        = streamBitBB W dst k) ∧
    (injector.inject (.big_unit_big_bit u) W (BW * W) src src_seen dst dst_seen).2
      = dst_seen + src_seen := by
  rw [block_inject_eq_word_by_word _ W (BW * W) src src_seen dst dst_seen hg]
  rcases Nat.eq_zero_or_pos W with hW0 | hW
  · subst hW0
    have h0 : src_seen = 0 := by omega
    subst h0
    refine ⟨fun j hj => ?_, fun k hk => ?_, ?_⟩
    · omega
    · omega
    · simp [word_by_word, successive_word_injections]
  · have hdm := Nat.div_add_mod src_seen W
    have hmul : W * (src_seen / W) = src_seen / W * W := Nat.mul_comm _ _
    have hrlt : src_seen % W < W := Nat.mod_lt _ hW
    obtain ⟨hc, hl, hpre, hsrc⟩ := successive_bubb_invariant u W BW src dst dst_seen hW hlen
      (src_seen / W) (by omega)
    unfold word_by_word
    simp only
    generalize successive_word_injections (.big_unit_big_bit u) W (BW * W) src
      (src_seen / W) (dst, dst_seen) = st at hc hl hpre hsrc
    by_cases hr : 0 < src_seen % W
    · simp only [hr, if_true, injector.inject_word, word_injector.inject]
      have hguard : st.2 + src_seen % W ≤ BW * W := by omega
      refine ⟨fun j hj => ?_, fun k hk => ?_, ?_⟩
      · by_cases hlt : j < src_seen / W * W
        · rw [inject_bubb_earlier W (BW * W) _ _ st.1 st.2 hW (dst_seen + j) (by omega)]
          exact hsrc j hlt
        · have hj' : dst_seen + j = st.2 + (j - src_seen / W * W) := by omega
          rw [hj', inject_bubb_written W BW _ (src_seen % W) st.1 st.2 hl hr
            (Nat.le_of_lt hrlt) hguard (j - src_seen / W * W) (by omega)]
          obtain ⟨hq, hm⟩ := div_mod_of_eq W (src_seen / W) (j - src_seen / W * W) j
            (by omega) (by omega)
          unfold streamBitBB
          rw [hq, hm]
      · rw [inject_bubb_earlier W (BW * W) _ _ st.1 st.2 hW k (by omega)]
        exact hpre k hk
      · rw [inject_bubb_cursor, if_pos hguard]; omega
    · simp only [hr, if_false]
      have hr0 : src_seen % W = 0 := by omega
      refine ⟨fun j hj => hsrc j (by omega), hpre, by omega⟩

theorem big_unit_big_bit_block_inject_witness :
    streamBitBB 8
        (injector.inject (.big_unit_big_bit 8) 8 (3 * 8) [0xA7, 0x5C, 0xE1] 11
          [0x12, 0x34, 0x56] 5).1
        (5 + 9) = streamBitBB 8 [0xA7, 0x5C, 0xE1] 9 ∧
    streamBitBB 8
        (injector.inject (.big_unit_big_bit 8) 8 (3 * 8) [0xA7, 0x5C, 0xE1] 11
          [0x12, 0x34, 0x56] 5).1 3
        = streamBitBB 8 [0x12, 0x34, 0x56] 3 ∧
    (injector.inject (.big_unit_big_bit 8) 8 (3 * 8) [0xA7, 0x5C, 0xE1] 11
      [0x12, 0x34, 0x56] 5).2 = 5 + 11 :=
  ⟨(big_unit_big_bit_block_inject 8 8 3 [0xA7, 0x5C, 0xE1] 11 [0x12, 0x34, 0x56] 5 rfl
      (by decide)).1 9 (by decide),
   (big_unit_big_bit_block_inject 8 8 3 [0xA7, 0x5C, 0xE1] 11 [0x12, 0x34, 0x56] 5 rfl
      (by decide)).2.1 3 (by decide),
   (big_unit_big_bit_block_inject 8 8 3 [0xA7, 0x5C, 0xE1] 11 [0x12, 0x34, 0x56] 5 rfl
      (by decide)).2.2⟩

/-! ## Poseidon LFSR -/

namespace poseidon_lfsr

theorem get_lfsr_state_bit_eq (state pos : Nat) (hpos : pos ≤ 79) :
    get_lfsr_state_bit state pos = bit_at state pos := by
  unfold get_lfsr_state_bit bit_at lfsr_state_bits
  have hlt : 2 ^ (80 - 1 - pos) < 2 ^ 80 := Nat.pow_lt_pow_right (by decide) (by omega)
  have he : 80 - 1 - pos = 79 - pos := by omega
  simp only [Nat.one_shiftLeft, Nat.mod_eq_of_lt hlt, Nat.and_two_pow, he]
  cases state.testBit (79 - pos) <;> simp

theorem set_new_bit_eq (type_bits var : Nat) (new_bit : Bool) :
    set_new_bit type_bits var new_bit = (2 * var + new_bit.toNat) % 2 ^ type_bits := by
  unfold set_new_bit
  have h : (if new_bit then 1 else 0) = new_bit.toNat := by cases new_bit <;> rfl
  have hlt : new_bit.toNat < 2 ^ 1 := by cases new_bit <;> decide
  rw [h, Nat.shiftLeft_eq, Nat.mul_comm var, ← Nat.mul_add_lt_is_or hlt var]

theorem new_bit_eq_tap_xor (state : Nat) :
    (((((get_lfsr_state_bit state 0 != get_lfsr_state_bit state 13)
      != get_lfsr_state_bit state 23) != get_lfsr_state_bit state 38)
      != get_lfsr_state_bit state 51) != get_lfsr_state_bit state 62) = tap_xor state := by
  rw [get_lfsr_state_bit_eq state 0 (by decide), get_lfsr_state_bit_eq state 13 (by decide),
    get_lfsr_state_bit_eq state 23 (by decide), get_lfsr_state_bit_eq state 38 (by decide),
    get_lfsr_state_bit_eq state 51 (by decide), get_lfsr_state_bit_eq state 62 (by decide)]
  unfold tap_xor
  cases bit_at state 0 <;> cases bit_at state 13 <;> cases bit_at state 23 <;>
    cases bit_at state 38 <;> cases bit_at state 51 <;> cases bit_at state 62 <;> rfl

theorem update_lfsr_state_raw_eq (state : Nat) :
    update_lfsr_state_raw state = (2 * state + (tap_xor state).toNat) % 2 ^ 80 := by
  unfold update_lfsr_state_raw
  simp only [new_bit_eq_tap_xor, set_new_bit_eq, lfsr_state_bits]

theorem update_lfsr_state_raw_lt (state : Nat) : update_lfsr_state_raw state < 2 ^ 80 := by
  rw [update_lfsr_state_raw_eq]
  exact Nat.mod_lt _ (by decide)

theorem testBit_update_lfsr_state_raw (state i : Nat) :
    (update_lfsr_state_raw state).testBit i =
      (decide (i < 80) && if i = 0 then tap_xor state else state.testBit (i - 1)) := by
  rw [update_lfsr_state_raw_eq, Nat.testBit_mod_two_pow]
  congr 1
  have hlt : (tap_xor state).toNat < 2 ^ 1 := by cases tap_xor state <;> decide
  have h := Nat.testBit_mul_pow_two_add state hlt i
  rw [Nat.pow_one] at h
  rw [h]
  by_cases hi : i = 0
  · subst hi
    cases tap_xor state <;> simp
  · have : ¬ (i < 1) := by omega
    simp [hi, this]

/-- C8: the raw step of the LFSR.  With bit positions numbered
0 = most significant .. 79 = least significant, `update_lfsr_state_raw(s)` is
`((2 * s) mod 2^80) + f`, where `f` is the exclusive or of the bits of `s` at
positions 0, 13, 23, 38, 51 and 62; bit `p` of the result is bit `p + 1` of `s`
for `p < 79`, and bit 79 of the result is `f`.  This holds for every register
value `s`, in particular for every 80-bit state. -/
theorem update_lfsr_state_raw_shift_and_feedback (s : Nat) :
    update_lfsr_state_raw s = (2 * s) % 2 ^ 80 + (tap_xor s).toNat ∧
    (∀ p, p < 79 → bit_at (update_lfsr_state_raw s) p = bit_at s (p + 1)) ∧
    bit_at (update_lfsr_state_raw s) 79 = tap_xor s := by
  refine ⟨?_, fun p hp => ?_, ?_⟩
  · rw [update_lfsr_state_raw_eq]
    have hlt : (tap_xor s).toNat < 2 := by cases tap_xor s <;> decide
    omega
  · unfold bit_at
    rw [testBit_update_lfsr_state_raw]
    have h1 : 79 - p < 80 := by omega
    have h2 : ¬ (79 - p = 0) := by omega
    have h3 : 79 - p - 1 = 79 - (p + 1) := by omega
    simp [h1, h2, h3]
  · unfold bit_at
    rw [testBit_update_lfsr_state_raw]
    simp

theorem update_lfsr_state_raw_shift_and_feedback_witness :
    update_lfsr_state_raw (2 ^ 79 + 2 ^ 17 + 5)
      = (2 * (2 ^ 79 + 2 ^ 17 + 5)) % 2 ^ 80 + (tap_xor (2 ^ 79 + 2 ^ 17 + 5)).toNat ∧
    bit_at (update_lfsr_state_raw (2 ^ 79 + 2 ^ 17 + 5)) 61 = bit_at (2 ^ 79 + 2 ^ 17 + 5) (61 + 1) ∧
    bit_at (update_lfsr_state_raw (2 ^ 79 + 2 ^ 17 + 5)) 79 = tap_xor (2 ^ 79 + 2 ^ 17 + 5) :=
  ⟨(update_lfsr_state_raw_shift_and_feedback (2 ^ 79 + 2 ^ 17 + 5)).1,
   (update_lfsr_state_raw_shift_and_feedback (2 ^ 79 + 2 ^ 17 + 5)).2.1 61 (by decide),
   (update_lfsr_state_raw_shift_and_feedback (2 ^ 79 + 2 ^ 17 + 5)).2.2⟩

/-! ### Initial state -/

theorem shiftRight_and_one_toNat (v i : Nat) :
    (((v >>> i) &&& 1) != 0).toNat = v / 2 ^ i % 2 := by
  rw [Nat.and_one_is_mod, Nat.shiftRight_eq_div_pow]
  rcases Nat.mod_two_eq_zero_or_one (v / 2 ^ i) with h | h <;> simp [h]

theorem set_new_bit_lt (var : Nat) (new_bit : Bool) :
    set_new_bit lfsr_state_bits var new_bit < 2 ^ 80 := by
  rw [set_new_bit_eq]
  exact Nat.mod_lt _ (by decide)

/-- Pushing the `n` low bits of `v`, most significant first, appends them to
the register. -/
theorem for_down_push_value (v n state : Nat) (hst : state < 2 ^ 80) :
    for_down (fun i state => set_new_bit lfsr_state_bits state (((v >>> i) &&& 1) != 0))
        n state
      = (state * 2 ^ n + v % 2 ^ n) % 2 ^ 80 := by
  induction n generalizing state with
  | zero =>
    simp only [for_down, Nat.pow_zero, Nat.mod_one, Nat.mul_one, Nat.add_zero]
    exact (Nat.mod_eq_of_lt hst).symm
  | succ n ih =>
    simp only [for_down]
    rw [ih _ (set_new_bit_lt _ _), set_new_bit_eq, shiftRight_and_one_toNat, lfsr_state_bits]
    have hv := @Nat.mod_pow_succ v 2 n
    have key : ((2 * state + v / 2 ^ n % 2) % 2 ^ 80 * 2 ^ n + v % 2 ^ n) % 2 ^ 80
        = ((2 * state + v / 2 ^ n % 2) * 2 ^ n + v % 2 ^ n) % 2 ^ 80 := by
      apply Nat.ModEq.add_right
      apply Nat.ModEq.mul_right
      exact Nat.mod_modEq _ _
    rw [key, hv]
    congr 1
    rw [Nat.pow_succ]
    ring

/-- Pushing `n` ones appends them to the register. -/
theorem for_down_push_ones (n state : Nat) (hst : state < 2 ^ 80) :
    for_down (fun _ state => set_new_bit lfsr_state_bits state true) n state
      = (state * 2 ^ n + (2 ^ n - 1)) % 2 ^ 80 := by
  induction n generalizing state with
  | zero =>
    simp only [for_down, Nat.pow_zero, Nat.mul_one, Nat.sub_self, Nat.add_zero]
    exact (Nat.mod_eq_of_lt hst).symm
  | succ n ih =>
    simp only [for_down]
    rw [ih _ (set_new_bit_lt _ _), set_new_bit_eq, lfsr_state_bits]
    have key : ((2 * state + true.toNat) % 2 ^ 80 * 2 ^ n + (2 ^ n - 1)) % 2 ^ 80
        = ((2 * state + true.toNat) * 2 ^ n + (2 ^ n - 1)) % 2 ^ 80 := by
      apply Nat.ModEq.add_right
      apply Nat.ModEq.mul_right
      exact Nat.mod_modEq _ _
    rw [key]
    congr 1
    have hpos : 0 < 2 ^ n := Nat.two_pow_pos n
    have e1 : (2 * state + true.toNat) * 2 ^ n = 2 * (state * 2 ^ n) + 2 ^ n := by
      rw [Bool.toNat_true]; ring
    have e2 : state * 2 ^ (n + 1) = 2 * (state * 2 ^ n) := by rw [Nat.pow_succ]; ring
    have e3 : 2 ^ (n + 1) = 2 * 2 ^ n := by rw [Nat.pow_succ, Nat.mul_comm]
    rw [e1, e2, e3]
    omega

theorem lfsr_pre_idle_state_eq (wb sw fr pr : Nat) :
    lfsr_pre_idle_state wb sw fr pr = encoded_parameters wb sw fr pr := by
  unfold lfsr_pre_idle_state encoded_parameters
  have hm : ∀ x : Nat, x % 2 ^ 80 < 2 ^ 80 := fun x => Nat.mod_lt _ (by decide)
  simp only []
  rw [for_down_push_value 1 2 0 (by decide), for_down_push_value 1 4 _ (hm _),
    for_down_push_value wb 12 _ (hm _), for_down_push_value sw 12 _ (hm _),
    for_down_push_value fr 10 _ (hm _), for_down_push_value pr 10 _ (hm _),
    for_down_push_ones 30 _ (hm _)]
  have h1 := Nat.mod_lt wb (show 0 < 2 ^ 12 by decide)
  have h2 := Nat.mod_lt sw (show 0 < 2 ^ 12 by decide)
  have h3 := Nat.mod_lt fr (show 0 < 2 ^ 10 by decide)
  have h4 := Nat.mod_lt pr (show 0 < 2 ^ 10 by decide)
  norm_num at h1 h2 h3 h4 ⊢
  omega

theorem testBit_append (a b i j : Nat) (hb : b < 2 ^ i) :
    (a * 2 ^ i + b).testBit j = if j < i then b.testBit j else a.testBit (j - i) := by
  rw [Nat.mul_comm, Nat.testBit_mul_pow_two_add a hb j]

/-- The bit of the encoded parameters at weight `2 ^ i`, field by field. -/
theorem testBit_encoded_parameters (wb sw fr pr i : Nat) :
    (encoded_parameters wb sw fr pr).testBit i =
      if i < 30 then true
      else if i < 40 then (pr % 2 ^ 10).testBit (i - 30)
      else if i < 50 then (fr % 2 ^ 10).testBit (i - 40)
      else if i < 62 then (sw % 2 ^ 12).testBit (i - 50)
      else if i < 74 then (wb % 2 ^ 12).testBit (i - 62)
      else Nat.testBit 17 (i - 74) := by
  unfold encoded_parameters
  have h1 := Nat.mod_lt wb (show 0 < 2 ^ 12 by decide)
  have h2 := Nat.mod_lt sw (show 0 < 2 ^ 12 by decide)
  have h3 := Nat.mod_lt fr (show 0 < 2 ^ 10 by decide)
  have h4 := Nat.mod_lt pr (show 0 < 2 ^ 10 by decide)
  have h5 : 2 ^ 30 - 1 < 2 ^ 30 := by decide
  rw [testBit_append _ _ 30 i h5, testBit_append _ _ 10 _ h4, testBit_append _ _ 10 _ h3,
    testBit_append _ _ 12 _ h2, testBit_append _ _ 12 _ h1, Nat.testBit_two_pow_sub_one]
  split_ifs <;> first | rfl | omega | simp [*]

theorem encoded_parameters_lt (wb sw fr pr : Nat) : encoded_parameters wb sw fr pr < 2 ^ 80 := by
  unfold encoded_parameters
  have h1 := Nat.mod_lt wb (show 0 < 2 ^ 12 by decide)
  have h2 := Nat.mod_lt sw (show 0 < 2 ^ 12 by decide)
  have h3 := Nat.mod_lt fr (show 0 < 2 ^ 10 by decide)
  have h4 := Nat.mod_lt pr (show 0 < 2 ^ 10 by decide)
  norm_num at h1 h2 h3 h4 ⊢
  omega

/-- C9: the initial state of the LFSR.  For all parameters,
`get_lfsr_init_state()` is 160 applications of `update_lfsr_state_raw` to an
80-bit value `P` whose bits, numbered 0 = most significant, are: at positions
6..17 the 12-bit big-endian encoding of `word_bits mod 2^12`, at 18..29 that of
`state_words mod 2^12`, at 30..39 the 10-bit encoding of `full_rounds mod 2^10`,
at 40..49 that of `part_rounds mod 2^10`, at 50..79 ones, and at 0..5 the
indicator bits (`01` and `0001`, i.e. the 6-bit encoding of 17).  `P` is the
concatenation of the 80 pushed bits: none is shifted out. -/
theorem get_lfsr_init_state_encoding (wb sw fr pr : Nat) :
    get_lfsr_init_state wb sw fr pr
      = update_lfsr_state_raw^[160] (encoded_parameters wb sw fr pr) ∧
    encoded_parameters wb sw fr pr < 2 ^ 80 ∧
    (∀ j, j < 12 → bit_at (encoded_parameters wb sw fr pr) (6 + j)
      = (wb % 2 ^ 12).testBit (11 - j)) ∧
    (∀ j, j < 12 → bit_at (encoded_parameters wb sw fr pr) (18 + j)
      = (sw % 2 ^ 12).testBit (11 - j)) ∧
    (∀ j, j < 10 → bit_at (encoded_parameters wb sw fr pr) (30 + j)
      = (fr % 2 ^ 10).testBit (9 - j)) ∧
    (∀ j, j < 10 → bit_at (encoded_parameters wb sw fr pr) (40 + j)
      = (pr % 2 ^ 10).testBit (9 - j)) ∧
    (∀ j, j < 30 → bit_at (encoded_parameters wb sw fr pr) (50 + j) = true) ∧
    (∀ j, j < 6 → bit_at (encoded_parameters wb sw fr pr) j = Nat.testBit 17 (5 - j)) := by
  refine ⟨?_, encoded_parameters_lt wb sw fr pr, fun j hj => ?_, fun j hj => ?_,
    fun j hj => ?_, fun j hj => ?_, fun j hj => ?_, fun j hj => ?_⟩
  · unfold get_lfsr_init_state
    rw [lfsr_pre_idle_state_eq]
  all_goals
    unfold bit_at
    rw [testBit_encoded_parameters]
  · have a1 : ¬ (79 - (6 + j) < 30) := by omega
    have a2 : ¬ (79 - (6 + j) < 40) := by omega
    have a3 : ¬ (79 - (6 + j) < 50) := by omega
    have a4 : ¬ (79 - (6 + j) < 62) := by omega
    have a5 : 79 - (6 + j) < 74 := by omega
    have a6 : 79 - (6 + j) - 62 = 11 - j := by omega
    simp only [a1, a2, a3, a4, a5, a6, if_true, if_false]
  · have a1 : ¬ (79 - (18 + j) < 30) := by omega
    have a2 : ¬ (79 - (18 + j) < 40) := by omega
    have a3 : ¬ (79 - (18 + j) < 50) := by omega
    have a4 : 79 - (18 + j) < 62 := by omega
    have a6 : 79 - (18 + j) - 50 = 11 - j := by omega
    simp only [a1, a2, a3, a4, a6, if_true, if_false]
  · have a1 : ¬ (79 - (30 + j) < 30) := by omega
    have a2 : ¬ (79 - (30 + j) < 40) := by omega
    have a3 : 79 - (30 + j) < 50 := by omega
    have a6 : 79 - (30 + j) - 40 = 9 - j := by omega
    simp only [a1, a2, a3, a6, if_true, if_false]
  · have a1 : ¬ (79 - (40 + j) < 30) := by omega
    have a2 : 79 - (40 + j) < 40 := by omega
    have a6 : 79 - (40 + j) - 30 = 9 - j := by omega
    simp only [a1, a2, a6, if_true, if_false]
  · have a1 : 79 - (50 + j) < 30 := by omega
    simp only [a1, if_true]
  · have a1 : ¬ (79 - j < 30) := by omega
    have a2 : ¬ (79 - j < 40) := by omega
    have a3 : ¬ (79 - j < 50) := by omega
    have a4 : ¬ (79 - j < 62) := by omega
    have a5 : ¬ (79 - j < 74) := by omega
    have a6 : 79 - j - 74 = 5 - j := by omega
    simp only [a1, a2, a3, a4, a5, a6, if_false]

theorem get_lfsr_init_state_encoding_witness :
    get_lfsr_init_state 255 3 8 57
      = update_lfsr_state_raw^[160] (encoded_parameters 255 3 8 57) ∧
    encoded_parameters 255 3 8 57 < 2 ^ 80 ∧
    bit_at (encoded_parameters 255 3 8 57) (6 + 4) = Nat.testBit (255 % 2 ^ 12) (11 - 4) ∧
    bit_at (encoded_parameters 255 3 8 57) (18 + 10) = Nat.testBit (3 % 2 ^ 12) (11 - 10) ∧
    bit_at (encoded_parameters 255 3 8 57) (30 + 6) = Nat.testBit (8 % 2 ^ 10) (9 - 6) ∧
    bit_at (encoded_parameters 255 3 8 57) (40 + 4) = Nat.testBit (57 % 2 ^ 10) (9 - 4) ∧
    bit_at (encoded_parameters 255 3 8 57) (50 + 29) = true ∧
    bit_at (encoded_parameters 255 3 8 57) 1 = Nat.testBit 17 (5 - 1) :=
  ⟨(get_lfsr_init_state_encoding 255 3 8 57).1,
   (get_lfsr_init_state_encoding 255 3 8 57).2.1,
   (get_lfsr_init_state_encoding 255 3 8 57).2.2.1 4 (by decide),
   (get_lfsr_init_state_encoding 255 3 8 57).2.2.2.1 10 (by decide),
   (get_lfsr_init_state_encoding 255 3 8 57).2.2.2.2.1 6 (by decide),
   (get_lfsr_init_state_encoding 255 3 8 57).2.2.2.2.2.1 4 (by decide),
   (get_lfsr_init_state_encoding 255 3 8 57).2.2.2.2.2.2.1 29 (by decide),
   (get_lfsr_init_state_encoding 255 3 8 57).2.2.2.2.2.2.2 1 (by decide)⟩

/-! ### Acceptance rule -/

theorem get_lfsr_state_bit_last (state : Nat) :
    get_lfsr_state_bit state (lfsr_state_bits - 1) = lsb state :=
  get_lfsr_state_bit_eq state 79 (Nat.le_refl _)

/-- The loop of `update_lfsr_state` breaks with state `t` within `fuel`
iterations exactly when `t` is the first state after an odd number of raw
advances whose least significant bit is 1, and fewer than `fuel` such states
were tested before it. -/
theorem update_lfsr_state_loop_eq_some (fuel s t : Nat) :
    update_lfsr_state_loop fuel s = some t ↔
      ∃ k, k < fuel ∧ (∀ j < k, lsb (update_lfsr_state_raw^[2 * j + 1] s) = false) ∧
        lsb (update_lfsr_state_raw^[2 * k + 1] s) = true ∧
        t = update_lfsr_state_raw^[2 * k + 1] s := by
  induction fuel generalizing s with
  | zero =>
    simp only [update_lfsr_state_loop]
    constructor
    · intro h; cases h
    · rintro ⟨k, hk, _⟩; omega
  | succ fuel ih =>
    have hshift : ∀ m, update_lfsr_state_raw^[m]
        (update_lfsr_state_raw (update_lfsr_state_raw s)) = update_lfsr_state_raw^[m + 2] s :=
      fun m => by rw [Function.iterate_add_apply]; rfl
    have hone : update_lfsr_state_raw^[2 * 0 + 1] s = update_lfsr_state_raw s := rfl
    simp only [update_lfsr_state_loop, get_lfsr_state_bit_last]
    by_cases hb : lsb (update_lfsr_state_raw s) = true
    · simp only [hb, if_true]
      constructor
      · intro h
        cases h
        exact ⟨0, Nat.succ_pos _, fun j hj => absurd hj (Nat.not_lt_zero j), hb, rfl⟩
      · rintro ⟨k, _, hfirst, _, ht⟩
        rcases Nat.eq_zero_or_pos k with hk0 | hkpos
        · subst hk0
          rw [ht]; rfl
        · have := hfirst 0 hkpos
          rw [hone, hb] at this
          cases this
    · have hbf : lsb (update_lfsr_state_raw s) = false := by
        cases hl : lsb (update_lfsr_state_raw s) with
        | false => rfl
        | true => exact absurd hl hb
      simp only [hbf, Bool.false_eq_true, if_false]
      rw [ih]
      constructor
      · rintro ⟨k, hk, hfirst, hlast, ht⟩
        refine ⟨k + 1, Nat.succ_lt_succ hk, fun j hj => ?_, ?_, ?_⟩
        · rcases Nat.eq_zero_or_pos j with hj0 | hjpos
          · subst hj0; exact hbf
          · have h := hfirst (j - 1) (by omega)
            rw [hshift] at h
            have e : 2 * (j - 1) + 1 + 2 = 2 * j + 1 := by omega
            rw [e] at h
            exact h
        · rw [hshift] at hlast
          exact hlast
        · rw [hshift] at ht
          exact ht
      · rintro ⟨k, hk, hfirst, hlast, ht⟩
        rcases Nat.eq_zero_or_pos k with hk0 | hkpos
        · subst hk0
          rw [hone, hbf] at hlast
          cases hlast
        · have e : 2 * (k - 1) + 1 + 2 = 2 * k + 1 := by omega
          refine ⟨k - 1, by omega, fun j hj => ?_, ?_, ?_⟩
          · have h := hfirst (j + 1) (by omega)
            rw [hshift]
            exact h
          · rw [hshift, e]; exact hlast
          · rw [hshift, e]; exact ht

/-- The call `update_lfsr_state(s)` returns `r` exactly when `r` is one raw
advance of the first state after an odd number of raw advances whose least
significant bit is 1. -/
theorem update_lfsr_state_returns_iff (s r : Nat) :
    update_lfsr_state_returns s r ↔ AcceptsOnOddLsb s r := by
  unfold update_lfsr_state_returns AcceptsOnOddLsb update_lfsr_state
  constructor
  · rintro ⟨fuel, h⟩
    rw [Option.map_eq_some'] at h
    obtain ⟨t, ht, hr⟩ := h
    obtain ⟨k, _, hfirst, hlast, hk⟩ := (update_lfsr_state_loop_eq_some fuel s t).mp ht
    exact ⟨k, hfirst, hlast, by rw [← hr, hk]⟩
  · rintro ⟨k, hfirst, hlast, hr⟩
    refine ⟨k + 1, ?_⟩
    rw [Option.map_eq_some']
    exact ⟨_, (update_lfsr_state_loop_eq_some (k + 1) s _).mpr
      ⟨k, Nat.lt_succ_self k, hfirst, hlast, rfl⟩, hr.symm⟩

/-- C10, as stated, fails: on the 80-bit state `2^79 + 2^77` the call
`update_lfsr_state` returns `2^79 + 2` (the loop breaks after its first raw
advance, whose result `2^78 + 1` has least significant bit 1 and most
significant bit 0), whereas one raw advance of the first state with most
significant bit 1, `raw(2^79 + 2)`, is 5. -/
theorem accepts_on_first_msb_fails :
    2 ^ 79 + 2 ^ 77 < 2 ^ 80 ∧
    update_lfsr_state_returns (2 ^ 79 + 2 ^ 77) (2 ^ 79 + 2) ∧
    ¬ AcceptsOnFirstMsb (2 ^ 79 + 2 ^ 77) (2 ^ 79 + 2) := by
  refine ⟨by decide, ⟨1, by decide⟩, ?_⟩
  rintro ⟨n, hfirst, hmsb, hr⟩
  have h1 : msb (update_lfsr_state_raw^[0 + 1] (2 ^ 79 + 2 ^ 77)) = false := by decide
  have h2 : msb (update_lfsr_state_raw^[1 + 1] (2 ^ 79 + 2 ^ 77)) = true := by decide
  have h3 : (2 ^ 79 + 2 : Nat)
      ≠ update_lfsr_state_raw (update_lfsr_state_raw^[1 + 1] (2 ^ 79 + 2 ^ 77)) := by decide
  rcases Nat.lt_trichotomy n 1 with hn | hn | hn
  · have hn0 : n = 0 := by omega
    subst hn0
    rw [h1] at hmsb
    cases hmsb
  · subst hn
    exact h3 hr
  · have := hfirst 1 hn
    rw [h2] at this
    cases this

/-- C10, amended: for every state `s` on which `update_lfsr_state` terminates
with result `r`, `r = raw(t)` where `t` is the first state among `raw(s)`,
`raw^3(s)`, `raw^5(s)`, ... (the states after an odd number of raw advances)
whose least significant bit is 1: the check is made after every second raw
advance, starting with the first, on the register's least significant bit, and
exactly one further raw advance follows the first success. -/
theorem update_lfsr_state_accepts_on_odd_lsb (s r : Nat)
    (h : update_lfsr_state_returns s r) : AcceptsOnOddLsb s r :=
  (update_lfsr_state_returns_iff s r).mp h

theorem update_lfsr_state_accepts_on_odd_lsb_witness :
    AcceptsOnOddLsb (2 ^ 79 + 2 ^ 77) (2 ^ 79 + 2) :=
  update_lfsr_state_accepts_on_odd_lsb (2 ^ 79 + 2 ^ 77) (2 ^ 79 + 2) ⟨1, by decide⟩

/-- Testing the least significant bit after every raw advance would not
describe the code either: on `2^78 + 2^77` the states after one, two and three
raw advances are `2^79 + 2^78`, `2^79 + 1` and `3`; the code does not test the
second one and returns `raw(3) = 6`. -/
theorem lsb_is_not_tested_after_even_advances :
    update_lfsr_state_raw^[1] (2 ^ 78 + 2 ^ 77) = 2 ^ 79 + 2 ^ 78 ∧
    update_lfsr_state_raw^[2] (2 ^ 78 + 2 ^ 77) = 2 ^ 79 + 1 ∧
    update_lfsr_state_raw^[3] (2 ^ 78 + 2 ^ 77) = 3 ∧
    update_lfsr_state 2 (2 ^ 78 + 2 ^ 77) = some 6 := by
  decide

end poseidon_lfsr

/-! ## Round constants -/

namespace poseidon_lfsr

theorem candidate_stream_append (fuel mb wb : Nat) (k1 k2 s s1 s2 : Nat) (l1 l2 : List Nat)
    (h1 : candidate_stream fuel mb wb k1 s = some (s1, l1))
    (h2 : candidate_stream fuel mb wb k2 s1 = some (s2, l2)) :
    candidate_stream fuel mb wb (k1 + k2) s = some (s2, l1 ++ l2) := by
  induction k1 generalizing s l1 with
  | zero =>
    simp only [candidate_stream, Option.some.injEq, Prod.mk.injEq] at h1
    obtain ⟨rfl, rfl⟩ := h1
    simpa using h2
  | succ k ih =>
    rw [Nat.succ_add]
    simp only [candidate_stream] at h1 ⊢
    cases hc : candidate_loop fuel mb wb (s, 0) with
    | none => simp [hc] at h1
    | some p =>
      obtain ⟨t, c⟩ := p
      simp only [hc, Option.map_eq_some'] at h1 ⊢
      obtain ⟨⟨t', l'⟩, hr, hpair⟩ := h1
      simp only [Prod.mk.injEq] at hpair
      obtain ⟨rfl, rfl⟩ := hpair
      exact ⟨(s2, l' ++ l2), ih t l' hr, rfl⟩

/-- The rejection loop ends on the first candidate of the stream that is below
the modulus. -/
theorem sample_loop_spec (fuel mb wb m : Nat) (tries s s' c : Nat)
    (h : sample_loop fuel mb wb m tries s = some (s', c)) :
    ∃ k cs, candidate_stream fuel mb wb (k + 1) s = some (s', cs ++ [c]) ∧
      (∀ x ∈ cs, ¬ x < m) ∧ c < m := by
  induction tries generalizing s with
  | zero => simp [sample_loop] at h
  | succ tries ih =>
    simp only [sample_loop] at h
    cases hc : candidate_loop fuel mb wb (s, 0) with
    | none => simp [hc] at h
    | some p =>
      obtain ⟨t, c1⟩ := p
      simp only [hc] at h
      by_cases hlt : c1 < m
      · simp only [hlt, if_true, Option.some.injEq, Prod.mk.injEq] at h
        obtain ⟨rfl, rfl⟩ := h
        refine ⟨0, [], ?_, by simp, hlt⟩
        simp [candidate_stream, hc]
      · simp only [hlt, if_false] at h
        obtain ⟨k, cs, hs, hrej, hacc⟩ := ih t h
        refine ⟨k + 1, c1 :: cs, ?_, ?_, hacc⟩
        · rw [candidate_stream]
          simp only [hc, hs, Option.map_some', List.cons_append]
        · intro x hx
          rcases List.mem_cons.mp hx with rfl | hx
          · exact hlt
          · exact hrej x hx

/-- The outer loop appends to the table, in order, the candidates of the one
continuing stream that are below the modulus. -/
theorem constants_loop_spec (fuel mb wb m : Nat) (n s s' : Nat) (tbl tbl' : List Nat)
    (h : constants_loop fuel mb wb m n (s, tbl) = some (s', tbl')) :
    ∃ k cs, candidate_stream fuel mb wb k s = some (s', cs) ∧
      tbl' = tbl ++ cs.filter (fun x => decide (x < m)) ∧
      (cs.filter (fun x => decide (x < m))).length = n := by
  induction n generalizing s tbl with
  | zero =>
    simp only [constants_loop, Option.some.injEq, Prod.mk.injEq] at h
    obtain ⟨rfl, rfl⟩ := h
    exact ⟨0, [], rfl, by simp, rfl⟩
  | succ n ih =>
    simp only [constants_loop] at h
    cases hc : sample_loop fuel mb wb m fuel s with
    | none => simp [hc] at h
    | some p =>
      obtain ⟨t, c⟩ := p
      simp only [hc] at h
      obtain ⟨k1, cs1, hs1, hrej, hacc⟩ := sample_loop_spec fuel mb wb m fuel s t c hc
      obtain ⟨k2, cs2, hs2, htbl, hlen⟩ := ih t (tbl ++ [c]) h
      have hf1 : (cs1 ++ [c]).filter (fun x => decide (x < m)) = [c] := by
        rw [List.filter_append]
        have : cs1.filter (fun x => decide (x < m)) = [] := by
          rw [List.filter_eq_nil_iff]
          intro x hx
          simpa using hrej x hx
        simp [this, hacc]
      refine ⟨k1 + 1 + k2, (cs1 ++ [c]) ++ cs2,
        candidate_stream_append fuel mb wb _ _ s t s' _ _ hs1 hs2, ?_, ?_⟩
      · rw [List.filter_append, hf1, htbl, List.append_assoc]
      · rw [List.filter_append, hf1, List.length_append, hlen]
        simp [Nat.add_comm]

/-- C11: rejection sampling.  Whenever `generate_round_constants` terminates,
its table is, in order, the candidates strictly below the modulus among the
first `k` candidates of the one continuing LFSR stream that starts at the
initial state (for some `k`), and it has `(full_rounds + part_rounds) *
state_words` entries: entry `i` is the `(i+1)`-th candidate below the modulus;
candidates at or above the modulus are skipped and the register continues from
where the previous candidate left it. -/
theorem round_constants_are_accepted_candidates (fuel mb m wb sw fr pr : Nat)
    (table : List Nat) (h : generate_round_constants fuel mb m wb sw fr pr = some table) :
    ∃ k s' cs,
      candidate_stream fuel mb wb k (get_lfsr_init_state wb sw fr pr) = some (s', cs) ∧
      table = cs.filter (fun x => decide (x < m)) ∧
      table.length = (fr + pr) * sw := by
  unfold generate_round_constants at h
  rw [Option.map_eq_some'] at h
  obtain ⟨⟨s', tbl⟩, hl, rfl⟩ := h
  obtain ⟨k, cs, hs, htbl, hlen⟩ := constants_loop_spec fuel mb wb m _ _ s' [] tbl hl
  rw [List.nil_append] at htbl
  exact ⟨k, s', cs, hs, htbl, by rw [htbl]; exact hlen⟩

set_option maxRecDepth 100000 in
theorem round_constants_are_accepted_candidates_witness :
    ∃ k s' cs,
      candidate_stream 8 8 8 k (get_lfsr_init_state 8 1 1 2) = some (s', cs) ∧
      [52, 21, 9] = cs.filter (fun x => decide (x < 100)) ∧
      List.length [52, 21, 9] = (1 + 2) * 1 :=
  round_constants_are_accepted_candidates 8 8 100 8 1 1 2 [52, 21, 9] (by decide)

/-- C12: modulus bound.  For every parameter set on which
`generate_round_constants` terminates, the table has `(full_rounds +
part_rounds) * state_words` entries and every integer stored in it is below the
modulus (and, being a natural number, at least 0). -/
theorem round_constants_below_modulus (fuel mb m wb sw fr pr : Nat) (table : List Nat)
    (h : generate_round_constants fuel mb m wb sw fr pr = some table) :
    table.length = (fr + pr) * sw ∧ ∀ c ∈ table, 0 ≤ c ∧ c < m := by
  unfold generate_round_constants at h
  rw [Option.map_eq_some'] at h
  obtain ⟨⟨s', tbl⟩, hl, rfl⟩ := h
  obtain ⟨k, cs, _, htbl, hlen⟩ := constants_loop_spec fuel mb wb m _ _ s' [] tbl hl
  rw [List.nil_append] at htbl
  refine ⟨by rw [htbl]; exact hlen, fun c hc => ⟨Nat.zero_le c, ?_⟩⟩
  rw [htbl] at hc
  simpa using (List.mem_filter.mp hc).2

set_option maxRecDepth 100000 in
theorem round_constants_below_modulus_witness :
    List.length [52, 21, 9] = (1 + 2) * 1 ∧ (0 ≤ 21 ∧ 21 < 100) :=
  ⟨(round_constants_below_modulus 8 8 100 8 1 1 2 [52, 21, 9] (by decide)).1,
   (round_constants_below_modulus 8 8 100 8 1 1 2 [52, 21, 9] (by decide)).2 21
     (by decide)⟩

/-! ### Candidate assembly -/

theorem msb_first_sum_cons (b : Bool) (bits : List Bool) :
    msb_first_sum (b :: bits) = b.toNat * 2 ^ bits.length + msb_first_sum bits := by
  unfold msb_first_sum
  rw [List.length_cons, List.range_succ_eq_map, List.map_cons, List.sum_cons, List.map_map]
  congr 1
  congr 1
  apply List.map_congr_left
  intro j _
  simp only [Function.comp, List.getD_cons_succ]
  congr 2
  omega

theorem msb_first_sum_lt (bits : List Bool) : msb_first_sum bits < 2 ^ bits.length := by
  induction bits with
  | nil => simp [msb_first_sum]
  | cons b bits ih =>
    rw [msb_first_sum_cons, List.length_cons, Nat.pow_succ]
    have hb : b.toNat ≤ 1 := by cases b <;> decide
    have : b.toNat * 2 ^ bits.length ≤ 1 * 2 ^ bits.length := Nat.mul_le_mul_right _ hb
    omega

/-- The bit loop pushes the output bits of the successive filtered advances,
first bit most significant, into `constant`. -/
theorem candidate_loop_spec (fuel mb : Nat) (n s c0 s' c : Nat) (hc0 : c0 < 2 ^ mb)
    (h : candidate_loop fuel mb n (s, c0) = some (s', c)) :
    ∃ states, filtered_states fuel n s = some states ∧ states.length = n ∧
      s' = states.getLastD s ∧
      c = (c0 * 2 ^ n + msb_first_sum
        (states.map (fun t => get_lfsr_state_bit t (lfsr_state_bits - 1)))) % 2 ^ mb := by
  induction n generalizing s c0 with
  | zero =>
    simp only [candidate_loop, Option.some.injEq, Prod.mk.injEq] at h
    obtain ⟨rfl, rfl⟩ := h
    refine ⟨[], rfl, rfl, rfl, ?_⟩
    simp only [List.map_nil, msb_first_sum, List.length_nil, List.range_zero, List.sum_nil,
      Nat.pow_zero, Nat.mul_one, Nat.add_zero]
    exact (Nat.mod_eq_of_lt hc0).symm
  | succ n ih =>
    simp only [candidate_loop, candidate_bit_step] at h
    cases hu : update_lfsr_state fuel s with
    | none => simp [hu] at h
    | some t =>
      simp only [hu] at h
      have hlt : set_new_bit mb c0 (get_lfsr_state_bit t (lfsr_state_bits - 1)) < 2 ^ mb := by
        rw [set_new_bit_eq]
        exact Nat.mod_lt _ (Nat.two_pow_pos mb)
      obtain ⟨states, hs, hlen, hlast, hc⟩ := ih t _ hlt h
      refine ⟨t :: states, ?_, by simp [hlen], ?_, ?_⟩
      · simp [filtered_states, hu, hs]
      · rw [hlast]
        cases states <;> rfl
      · rw [hc, set_new_bit_eq, List.map_cons, msb_first_sum_cons, List.length_map, hlen]
        have key : ((2 * c0 + (get_lfsr_state_bit t (lfsr_state_bits - 1)).toNat) % 2 ^ mb
              * 2 ^ n + msb_first_sum
                (states.map (fun t => get_lfsr_state_bit t (lfsr_state_bits - 1)))) % 2 ^ mb
            = ((2 * c0 + (get_lfsr_state_bit t (lfsr_state_bits - 1)).toNat) * 2 ^ n
              + msb_first_sum
                (states.map (fun t => get_lfsr_state_bit t (lfsr_state_bits - 1)))) % 2 ^ mb := by
          apply Nat.ModEq.add_right
          apply Nat.ModEq.mul_right
          exact Nat.mod_modEq _ _
        rw [key]
        congr 1
        rw [Nat.pow_succ]
        ring

/-- C13: candidate assembly.  In `generate_round_constants` a candidate is
built from exactly `word_bits` output bits, first bit most significant: with
`o_j` the bit `get_lfsr_state_bit(state, lfsr_state_bits - 1)` read after the
`(j+1)`-th filtered advance of the attempt, the candidate is the sum of
`o_j * 2 ^ (word_bits - 1 - j)` when the modulus type is at least `word_bits`
wide; hence it is below `2 ^ word_bits`. -/
theorem candidate_is_msb_first (fuel mb wb s s' c : Nat) (hwide : wb ≤ mb)
    (h : candidate_loop fuel mb wb (s, 0) = some (s', c)) :
    ∃ states, filtered_states fuel wb s = some states ∧ states.length = wb ∧
      c = msb_first_sum (states.map (fun t => get_lfsr_state_bit t (lfsr_state_bits - 1))) ∧
      c < 2 ^ wb := by
  obtain ⟨states, hs, hlen, _, hc⟩ :=
    candidate_loop_spec fuel mb wb s 0 s' c (Nat.two_pow_pos mb) h
  have hlt := msb_first_sum_lt (states.map (fun t => get_lfsr_state_bit t (lfsr_state_bits - 1)))
  rw [List.length_map, hlen] at hlt
  have hle : 2 ^ wb ≤ 2 ^ mb := Nat.pow_le_pow_right (by decide) hwide
  rw [Nat.zero_mul, Nat.zero_add, Nat.mod_eq_of_lt (Nat.lt_of_lt_of_le hlt hle)] at hc
  exact ⟨states, hs, hlen, hc, hc ▸ hlt⟩

set_option maxRecDepth 100000 in
theorem candidate_is_msb_first_witness :
    ∃ states, filtered_states 8 4 (get_lfsr_init_state 4 1 1 1) = some states ∧
      states.length = 4 ∧
      13 = msb_first_sum (states.map (fun t => get_lfsr_state_bit t (lfsr_state_bits - 1))) ∧
      13 < 2 ^ 4 :=
  candidate_is_msb_first 8 4 4 (get_lfsr_init_state 4 1 1 1) 114761287277250547380683 13
    (by decide) (by decide)

/-! ### Indicator bits and pairwise filtering -/

/-- C17, as stated, fails: at iteration `i = 0` each indicator loop pushes the
bit `(1 >> 0) & 1 = 1`, and positions 1 and 5 of the value built before the
idling advances hold a 1 (shown for `word_bits = 8`, `state_words = 3`,
`full_rounds = 8`, `part_rounds = 57`). -/
theorem indicator_bits_not_all_zero :
    indicator_bit 0 = true ∧
    bit_at (lfsr_pre_idle_state 8 3 8 57) 1 = true ∧
    bit_at (lfsr_pre_idle_state 8 3 8 57) 5 = true := by
  rw [lfsr_pre_idle_state_eq]
  decide

theorem indicator_bit_eq (i : Nat) : indicator_bit i = decide (i = 0) := by
  unfold indicator_bit
  rcases Nat.eq_zero_or_pos i with rfl | hi
  · decide
  · have h1 : 1 >>> i = 0 := by
      rw [Nat.shiftRight_eq_div_pow]
      exact Nat.div_eq_of_lt (Nat.one_lt_two_pow (by omega))
    have h2 : ¬ (i = 0) := by omega
    simp [h1, h2]

/-- C17, amended: in `get_lfsr_init_state` the two indicator loops push the bit
`(1 >> i) & 1`, which is 0 for `i >= 1` and 1 for `i = 0`, so the register
holds `01` after the first loop and `010001` after the second, and for all
parameters the six most significant bits of the 80-bit value built before the
160 idling advances are 0, 1, 0, 0, 0, 1. -/
theorem indicator_loops_push_one_at_zero (wb sw fr pr : Nat) :
    (∀ i, indicator_bit i = decide (i = 0)) ∧
    for_down (fun i state => set_new_bit lfsr_state_bits state (indicator_bit i)) 2 0 = 1 ∧
    for_down (fun i state => set_new_bit lfsr_state_bits state (indicator_bit i)) 4 1 = 17 ∧
    (∀ j, j < 6 →
      bit_at (lfsr_pre_idle_state wb sw fr pr) j = decide (j = 1 ∨ j = 5)) := by
  refine ⟨indicator_bit_eq, by decide, by decide, fun j hj => ?_⟩
  rw [lfsr_pre_idle_state_eq]
  unfold bit_at
  rw [testBit_encoded_parameters]
  have a1 : ¬ (79 - j < 30) := by omega
  have a2 : ¬ (79 - j < 40) := by omega
  have a3 : ¬ (79 - j < 50) := by omega
  have a4 : ¬ (79 - j < 62) := by omega
  have a5 : ¬ (79 - j < 74) := by omega
  simp only [a1, a2, a3, a4, a5, if_false]
  have hj' : j = 0 ∨ j = 1 ∨ j = 2 ∨ j = 3 ∨ j = 4 ∨ j = 5 := by omega
  rcases hj' with rfl | rfl | rfl | rfl | rfl | rfl <;> decide

theorem indicator_loops_push_one_at_zero_witness :
    indicator_bit 0 = decide (0 = 0) ∧
    for_down (fun i state => set_new_bit lfsr_state_bits state (indicator_bit i)) 2 0 = 1 ∧
    for_down (fun i state => set_new_bit lfsr_state_bits state (indicator_bit i)) 4 1 = 17 ∧
    bit_at (lfsr_pre_idle_state 8 3 8 57) 5 = decide (5 = 1 ∨ 5 = 5) :=
  ⟨(indicator_loops_push_one_at_zero 8 3 8 57).1 0,
   (indicator_loops_push_one_at_zero 8 3 8 57).2.1,
   (indicator_loops_push_one_at_zero 8 3 8 57).2.2.1,
   (indicator_loops_push_one_at_zero 8 3 8 57).2.2.2 5 (by decide)⟩

/-- C18: pairwise filtering.  For every state `s` on which `update_lfsr_state`
terminates with result `r`, `r = raw^(2k)(s)` where `k >= 1` is the least `k`
such that the least significant bit of `raw^(2k-1)(s)` is 1: the number of raw
advances is even and at least 2, the test is applied after the odd-numbered
advances only, and the bit read at position `lfsr_state_bits - 1` after the
call is the feedback bit computed by the last raw advance. -/
theorem update_lfsr_state_pairwise (s r : Nat) (h : update_lfsr_state_returns s r) :
    ∃ k, 1 ≤ k ∧
      (∀ k', 1 ≤ k' → k' < k → lsb (update_lfsr_state_raw^[2 * k' - 1] s) = false) ∧
      lsb (update_lfsr_state_raw^[2 * k - 1] s) = true ∧
      r = update_lfsr_state_raw^[2 * k] s ∧
      get_lfsr_state_bit r (lfsr_state_bits - 1)
        = tap_xor (update_lfsr_state_raw^[2 * k - 1] s) := by
  obtain ⟨k, hfirst, hlast, hr⟩ := (update_lfsr_state_returns_iff s r).mp h
  have e1 : 2 * (k + 1) - 1 = 2 * k + 1 := by omega
  have e2 : 2 * (k + 1) = (2 * k + 1) + 1 := by omega
  refine ⟨k + 1, by omega, fun k' h1 h2 => ?_, ?_, ?_, ?_⟩
  · have := hfirst (k' - 1) (by omega)
    have e : 2 * (k' - 1) + 1 = 2 * k' - 1 := by omega
    rw [e] at this
    exact this
  · rw [e1]; exact hlast
  · rw [e2, Function.iterate_succ_apply']; exact hr
  · rw [e1, hr, get_lfsr_state_bit_last]
    unfold lsb
    rw [testBit_update_lfsr_state_raw]
    simp

theorem update_lfsr_state_pairwise_witness :
    ∃ k, 1 ≤ k ∧
      (∀ k', 1 ≤ k' → k' < k →
        lsb (update_lfsr_state_raw^[2 * k' - 1] (2 ^ 78 + 2 ^ 77)) = false) ∧
      lsb (update_lfsr_state_raw^[2 * k - 1] (2 ^ 78 + 2 ^ 77)) = true ∧
      6 = update_lfsr_state_raw^[2 * k] (2 ^ 78 + 2 ^ 77) ∧
      get_lfsr_state_bit 6 (lfsr_state_bits - 1)
        = tap_xor (update_lfsr_state_raw^[2 * k - 1] (2 ^ 78 + 2 ^ 77)) :=
  update_lfsr_state_pairwise (2 ^ 78 + 2 ^ 77) 6 ⟨2, by decide⟩

end poseidon_lfsr

/-! ## Word injector, `little_unit_little_bit` -/

theorem testBit_low_mask (W n i : Nat) :
    (all_ones W >>> (W - n)).testBit i = decide (W - n + i < W) := by
  simp only [all_ones, Nat.testBit_shiftRight, Nat.testBit_two_pow_sub_one]

theorem testBit_low_bits (W x n i : Nat) :
    (low_bits W x n).testBit i = (x.testBit i && decide (W - n + i < W)) := by
  simp only [low_bits, Nat.testBit_and, testBit_low_mask]

theorem inject_lulb_rd (W BB w ws : Nat) (b : Block) (bs j : Nat) (hg : bs + ws ≤ BB) :
    (word_injector.inject_little_unit_little_bit W BB w ws b bs).1.rd j =
      if bs % W + ws > W ∧ j = bs / W + 1 ∧ bs / W + 1 < b.length then
        low_bits W w ws >>> (W - bs % W)
      else if j = bs / W ∧ bs / W < b.length then
        (low_bits W (b.rd (bs / W)) (bs % W) ||| (low_bits W w ws <<< (bs % W))) % 2 ^ W
      else b.rd j := by
  unfold word_injector.inject_little_unit_little_bit
  simp only [hg, if_true]
  by_cases hs : bs % W + ws > W
  · simp only [hs, if_true, Block.rd_wr, Block.length_wr, true_and]
    by_cases h1 : bs / W + 1 = j
    · subst h1
      by_cases h2 : bs / W + 1 < b.length
      · simp [h2]
      · simp [h2]
    · have h1' : ¬ (j = bs / W + 1) := fun h => h1 h.symm
      simp only [h1, h1', false_and, if_false]
      by_cases h3 : bs / W = j
      · subst h3
        by_cases h4 : bs / W < b.length <;> simp [h4]
      · have h3' : ¬ (j = bs / W) := fun h => h3 h.symm
        simp [h3, h3']
  · simp only [hs, if_false, Block.rd_wr, Block.length_wr, false_and]
    by_cases h3 : bs / W = j
    · subst h3
      by_cases h4 : bs / W < b.length <;> simp [h4]
    · have h3' : ¬ (j = bs / W) := fun h => h3 h.symm
      simp [h3, h3']

/-- C14: word injector, `little_unit_little_bit`.  With stream bits numbered
least significant first, whenever `1 ≤ word_seen ≤ WordBits` and
`block_seen + word_seen ≤ BlockBits = BlockWords * WordBits`, after `inject`
stream bit `block_seen + j` of the block is bit `j` of `w` for every
`j < word_seen`, and every stream bit `k < block_seen` is unchanged. -/
theorem little_unit_little_bit_inject_writes_low_bits (W BW w ws : Nat) (b : Block)
    (bs : Nat) (hlen : b.length = BW) (h1 : 1 ≤ ws) (h2 : ws ≤ W) (h3 : bs + ws ≤ BW * W) :
    (∀ j, j < ws →
      streamBitLL W (word_injector.inject_little_unit_little_bit W (BW * W) w ws b bs).1
        (bs + j) = w.testBit j) ∧
    (∀ k, k < bs →
      streamBitLL W (word_injector.inject_little_unit_little_bit W (BW * W) w ws b bs).1 k
        = streamBitLL W b k) := by
  have hW : 0 < W := by omega
  have hr : bs % W < W := Nat.mod_lt _ hW
  have hdm := Nat.div_add_mod bs W
  have hi : bs / W < b.length := hlen ▸ index_lt_of_le W BW bs ws h1 h3
  refine ⟨fun j hj => ?_, fun k hk => ?_⟩
  · unfold streamBitLL
    rw [inject_lulb_rd W (BW * W) w ws b bs _ h3]
    by_cases hc : bs % W + j < W
    · obtain ⟨hq, hm⟩ := div_mod_of_eq W (bs / W) (bs % W + j) (bs + j) (by omega) hc
      rw [hq, hm]
      have hne : ¬ (bs / W = bs / W + 1) := by omega
      simp only [hne, false_and, and_false, if_false, hi, and_self, if_true,
        Nat.testBit_mod_two_pow, Nat.testBit_or, testBit_low_bits, Nat.testBit_shiftLeft]
      have d1 : ¬ (W - bs % W + (bs % W + j) < W) := by omega
      have d2 : bs % W + j ≥ bs % W := by omega
      have d3 : bs % W + j - bs % W = j := by omega
      have d4 : W - ws + j < W := by omega
      simp [hc, d1, d2, d3, d4]
    · have hs : bs % W + ws > W := by omega
      have hi1 : bs / W + 1 < b.length := hlen ▸ next_index_lt_of_le W BW bs ws hs h3
      obtain ⟨hq, hm⟩ := div_mod_of_eq W (bs / W + 1) (bs % W + j - W) (bs + j)
        (by rw [Nat.mul_add, Nat.mul_one]; omega) (by omega)
      rw [hq, hm]
      simp only [hs, hi1, and_self, if_true, Nat.testBit_shiftRight, testBit_low_bits]
      have e1 : W - bs % W + (bs % W + j - W) = j := by omega
      have d4 : W - ws + j < W := by omega
      simp [e1, d4]
  · unfold streamBitLL
    rw [inject_lulb_rd W (BW * W) w ws b bs _ h3]
    have hkm : k % W < W := Nat.mod_lt _ hW
    have hle : k / W ≤ bs / W := Nat.div_le_div_right (Nat.le_of_lt hk)
    have hne : ¬ (k / W = bs / W + 1) := by omega
    simp only [hne, false_and, and_false, if_false]
    by_cases hq : k / W = bs / W
    · have hdk := Nat.div_add_mod k W
      have hlt : k % W < bs % W := by rw [hq] at hdk; omega
      simp only [hq, hi, and_self, if_true, Nat.testBit_mod_two_pow, Nat.testBit_or,
        testBit_low_bits, Nat.testBit_shiftLeft]
      have d1 : W - bs % W + k % W < W := by omega
      have d2 : ¬ (k % W ≥ bs % W) := by omega
      simp [hkm, d1, d2]
    · simp [hq]

theorem little_unit_little_bit_inject_writes_low_bits_witness :
    streamBitLL 8 (word_injector.inject_little_unit_little_bit 8 (2 * 8) 0xB5 5
        [0xFF, 0xFF] 6).1 (6 + 4) = Nat.testBit 0xB5 4 ∧
    streamBitLL 8 (word_injector.inject_little_unit_little_bit 8 (2 * 8) 0xB5 5
        [0xFF, 0xFF] 6).1 3 = streamBitLL 8 [0xFF, 0xFF] 3 :=
  ⟨(little_unit_little_bit_inject_writes_low_bits 8 2 0xB5 5 [0xFF, 0xFF] 6 rfl (by decide)
      (by decide) (by decide)).1 4 (by decide),
   (little_unit_little_bit_inject_writes_low_bits 8 2 0xB5 5 [0xFF, 0xFF] 6 rfl (by decide)
      (by decide) (by decide)).2 3 (by decide)⟩


/-! ## Word injector, `little_unit_big_bit` -/

/-- C15, the code at the failing input: with 8-bit units in 32-bit words, 31
bits of the word `0x02000000` injected at cursor 26 into an empty two-word
block leave the block empty.  Stream bit 30 of the word is 1, stream bit
`26 + 30` of the block is 0: the bit is shifted out of `w_split` in the second
loop. -/
theorem little_unit_big_bit_unaligned_bit_lost :
    word_injector.inject_little_unit_big_bit 8 32 64 0x02000000 31 [0, 0] 26 = ([0, 0], 26) ∧
    wordStreamBitLUBB 8 0x02000000 30 = true ∧
    streamBitLUBB 8 32
      (word_injector.inject_little_unit_big_bit 8 32 64 0x02000000 31 [0, 0] 26).1 (26 + 30)
      = false := by
  decide

/-- C20, the code at the failing input: with 8-bit units in 32-bit words and
the unit-aligned cursor 16, injecting 20 bits of `0x0000ABCD` fills word 0 and
spills into word 1; the masked word is `0xABCD`, the spilled part
`masked w >> 16` is 0, the test `if (w)` fails and word 1 keeps its old content
`0xFFFFFFFF`, so stream bit `16 + 16` of the block is 1 where stream bit 16 of
the word is 0. -/
theorem little_unit_big_bit_zero_spill_not_stored :
    word_injector.inject_little_unit_big_bit 8 32 64 0xABCD 20 [0x0000FFEE, 0xFFFFFFFF] 16
      = ([0xABCDFFEE, 0xFFFFFFFF], 16) ∧
    16 % 32 + 20 > 32 ∧
    lubb_masked 32 8 0xABCD 20 = 0xABCD ∧
    lubb_masked 32 8 0xABCD 20 >>> (32 - 16 % 32) = 0 ∧
    wordStreamBitLUBB 8 0xABCD 16 = false ∧
    streamBitLUBB 8 32
      (word_injector.inject_little_unit_big_bit 8 32 64 0xABCD 20
        [0x0000FFEE, 0xFFFFFFFF] 16).1 (16 + 16) = true := by
  decide

/-! ## Bit reversal -/

theorem testBit_rev_bits (W x j : Nat) :
    (rev_bits W x).testBit j = (decide (j < W) && x.testBit (W - 1 - j)) := by
  induction W generalizing x j with
  | zero => simp [rev_bits]
  | succ W ih =>
    have hlt : rev_bits W (x / 2) < 2 ^ W :=
      Nat.lt_pow_two_of_testBit _ (fun i hi => by
        rw [ih]
        have : ¬ (i < W) := by omega
        simp [this])
    rw [rev_bits, poseidon_lfsr.testBit_append _ _ W j hlt]
    by_cases h1 : j < W
    · have h2 : j < W + 1 := by omega
      have e : W + 1 - 1 - j = (W - 1 - j) + 1 := by omega
      rw [if_pos h1, ih, e, Nat.testBit_succ]
      simp [h1, h2]
    · rw [if_neg h1]
      by_cases h3 : j = W
      · subst h3
        simp only [Nat.sub_self, Nat.lt_succ_self, decide_True, Bool.true_and,
          Nat.add_sub_cancel]
        rw [Nat.testBit_zero, Nat.testBit_zero, Nat.mod_mod]
      · have h4 : ¬ (j < W + 1) := by omega
        have h5 : x % 2 < 2 ^ (j - W) :=
          Nat.lt_of_lt_of_le (Nat.mod_lt _ (by decide))
            (by
              have : 2 ^ 1 ≤ 2 ^ (j - W) := Nat.pow_le_pow_right (by decide) (by omega)
              simpa using this)
        simp [h4, Nat.testBit_lt_two_pow h5]

theorem rev_bits_lt (W x : Nat) : rev_bits W x < 2 ^ W :=
  Nat.lt_pow_two_of_testBit _ (fun i hi => by
    rw [testBit_rev_bits]
    have : ¬ (i < W) := by omega
    simp [this])

theorem testBit_eq_false_of_lt {W x i : Nat} (hx : x < 2 ^ W) (hi : W ≤ i) :
    x.testBit i = false :=
  Nat.testBit_lt_two_pow (Nat.lt_of_lt_of_le hx (Nat.pow_le_pow_right (by decide) hi))

theorem rev_bits_zero (W : Nat) : rev_bits W 0 = 0 := by
  apply Nat.eq_of_testBit_eq
  intro j
  simp [testBit_rev_bits]

theorem rev_bits_rev_bits (W x : Nat) (hx : x < 2 ^ W) : rev_bits W (rev_bits W x) = x := by
  apply Nat.eq_of_testBit_eq
  intro j
  rw [testBit_rev_bits, testBit_rev_bits]
  by_cases h : j < W
  · have h1 : W - 1 - j < W := by omega
    have h2 : W - 1 - (W - 1 - j) = j := by omega
    simp [h, h1, h2]
  · simp [h, testBit_eq_false_of_lt hx (Nat.le_of_not_lt h)]

theorem rev_bits_eq_zero_iff (W x : Nat) (hx : x < 2 ^ W) : rev_bits W x = 0 ↔ x = 0 := by
  constructor
  · intro h
    rw [← rev_bits_rev_bits W x hx, h, rev_bits_zero]
  · intro h
    rw [h, rev_bits_zero]

theorem rev_bits_and (W x y : Nat) :
    rev_bits W (x &&& y) = rev_bits W x &&& rev_bits W y := by
  apply Nat.eq_of_testBit_eq
  intro j
  simp only [testBit_rev_bits, Nat.testBit_and]
  cases decide (j < W) <;> simp

theorem rev_bits_or (W x y : Nat) :
    rev_bits W (x ||| y) = rev_bits W x ||| rev_bits W y := by
  apply Nat.eq_of_testBit_eq
  intro j
  simp only [testBit_rev_bits, Nat.testBit_or]
  cases decide (j < W) <;> simp

theorem rev_bits_mod (W x : Nat) : rev_bits W (x % 2 ^ W) = rev_bits W x := by
  apply Nat.eq_of_testBit_eq
  intro j
  simp only [testBit_rev_bits, Nat.testBit_mod_two_pow]
  by_cases h : j < W
  · have h1 : W - 1 - j < W := by omega
    simp [h, h1]
  · simp [h]

/-- Reversal turns a left shift (cut to the word) into a right shift. -/
theorem rev_bits_shiftLeft (W x k : Nat) :
    rev_bits W ((x <<< k) % 2 ^ W) = rev_bits W x >>> k := by
  apply Nat.eq_of_testBit_eq
  intro j
  simp only [testBit_rev_bits, Nat.testBit_mod_two_pow, Nat.testBit_shiftLeft,
    Nat.testBit_shiftRight]
  by_cases h : k + j < W
  · have h1 : j < W := by omega
    have h2 : W - 1 - j < W := by omega
    have h3 : W - 1 - j ≥ k := by omega
    have h4 : W - 1 - j - k = W - 1 - (k + j) := by omega
    simp [h, h1, h2, h3, h4]
  · by_cases h1 : j < W
    · have h3 : ¬ (W - 1 - j ≥ k) := by omega
      simp [h, h1, h3]
    · simp [h, h1]

/-- Reversal turns a right shift into a left shift cut to the word. -/
theorem rev_bits_shiftRight (W x k : Nat) (hx : x < 2 ^ W) :
    rev_bits W (x >>> k) = (rev_bits W x <<< k) % 2 ^ W := by
  apply Nat.eq_of_testBit_eq
  intro j
  simp only [testBit_rev_bits, Nat.testBit_mod_two_pow, Nat.testBit_shiftLeft,
    Nat.testBit_shiftRight]
  by_cases h1 : j < W
  · by_cases h2 : j ≥ k
    · have h3 : j - k < W := by omega
      have h4 : k + (W - 1 - j) = W - 1 - (j - k) := by omega
      simp [h1, h2, h3, h4]
    · have h5 : W ≤ k + (W - 1 - j) := by omega
      simp [h1, h2, testBit_eq_false_of_lt hx h5]
  · simp [h1]

theorem rev_bits_not (W m : Nat) :
    rev_bits W (all_ones W ^^^ m) = all_ones W ^^^ rev_bits W m := by
  apply Nat.eq_of_testBit_eq
  intro j
  simp only [testBit_rev_bits, Nat.testBit_xor, all_ones, Nat.testBit_two_pow_sub_one]
  by_cases h1 : j < W
  · have h2 : W - 1 - j < W := by omega
    simp [h1, h2]
  · simp [h1]

theorem rev_bits_high_bits_ones (W n : Nat) :
    rev_bits W (high_bits W (all_ones W) n) = low_bits W (all_ones W) n := by
  apply Nat.eq_of_testBit_eq
  intro j
  simp only [testBit_rev_bits, testBit_high_bits, testBit_low_bits, all_ones,
    Nat.testBit_two_pow_sub_one]
  by_cases h1 : j < W
  · have h2 : W - 1 - j < W := by omega
    by_cases h3 : W - n + j < W
    · have h4 : W - n ≤ W - 1 - j := by omega
      simp [h1, h2, h3, h4]
    · have h4 : ¬ (W - n ≤ W - 1 - j) := by omega
      simp [h1, h2, h3, h4]
  · simp [h1]

theorem high_bits_ones_lt (W n : Nat) : high_bits W (all_ones W) n < 2 ^ W := by
  unfold high_bits
  exact Nat.and_lt_two_pow _ (Nat.mod_lt _ (Nat.two_pow_pos W))

theorem low_bits_ones_lt (W n : Nat) : low_bits W (all_ones W) n < 2 ^ W := by
  unfold low_bits
  have h : all_ones W < 2 ^ W := by
    unfold all_ones
    have := Nat.two_pow_pos W
    omega
  exact Nat.lt_of_le_of_lt Nat.and_le_left h


/-! ## Mirror symmetry of the unit-ordered injectors -/

open word_injector

theorem rev_bits_shiftLeft_raw (W x k : Nat) :
    rev_bits W (x <<< k) = rev_bits W x >>> k := by
  rw [← rev_bits_mod, rev_bits_shiftLeft]

theorem shiftRight_lt_two_pow {W x : Nat} (k : Nat) (hx : x < 2 ^ W) : x >>> k < 2 ^ W := by
  rw [Nat.shiftRight_eq_div_pow]
  exact Nat.lt_of_le_of_lt (Nat.div_le_self _ _) hx

theorem or_mod_two_pow (W a b : Nat) (ha : a < 2 ^ W) :
    (a ||| b) % 2 ^ W = a ||| b % 2 ^ W := by
  apply Nat.eq_of_testBit_eq
  intro j
  simp only [Nat.testBit_mod_two_pow, Nat.testBit_or]
  by_cases h : j < W
  · simp [h]
  · simp [h, testBit_eq_false_of_lt ha (Nat.le_of_not_lt h)]

theorem bulb_init_bounded (W U w ws bs : Nat) :
    SplitState.Bounded W (bulb_init W U w ws bs) := by
  unfold SplitState.Bounded bulb_init
  refine ⟨?_, Nat.two_pow_pos W, shiftRight_lt_two_pow _ (high_bits_ones_lt W _),
    high_bits_ones_lt W _⟩
  exact Nat.and_lt_two_pow _
    (Nat.or_lt_two_pow (high_bits_ones_lt W _) (shiftRight_lt_two_pow _ (high_bits_ones_lt W _)))

theorem bulb_body_bounded (W U b_rem : Nat) (f : Bool) (s : SplitState)
    (hs : SplitState.Bounded W s) : SplitState.Bounded W (bulb_body W U b_rem f s) := by
  obtain ⟨hw, _, h0, h1⟩ := hs
  unfold SplitState.Bounded bulb_body
  refine ⟨Nat.lt_of_le_of_lt Nat.and_le_left hw, Nat.mod_lt _ (Nat.two_pow_pos W), ?_, ?_⟩
  · simp only
    split
    · exact shiftRight_lt_two_pow _ h0
    · exact h0
  · simp only
    split
    · exact h1
    · exact shiftRight_lt_two_pow _ h1

theorem bulb_reinit_bounded (W U bs : Nat) (s : SplitState) :
    SplitState.Bounded W (bulb_reinit W U bs s) := by
  unfold SplitState.Bounded bulb_reinit
  exact ⟨Nat.mod_lt _ (Nat.two_pow_pos W), Nat.two_pow_pos W,
    shiftRight_lt_two_pow _ (high_bits_ones_lt W _), high_bits_ones_lt W _⟩

/-- The word mask of `little_unit_big_bit` is the reversed word mask of
`big_unit_little_bit`. -/
theorem rev_bits_bulb_mask (W n m k : Nat) :
    rev_bits W (high_bits W (all_ones W) n ||| (high_bits W (all_ones W) m >>> k))
      = (low_bits W (all_ones W) n ||| (low_bits W (all_ones W) m <<< k)) % 2 ^ W := by
  rw [rev_bits_or, rev_bits_shiftRight W _ k (high_bits_ones_lt W m), rev_bits_high_bits_ones,
    rev_bits_high_bits_ones, or_mod_two_pow W _ _ (low_bits_ones_lt W n)]

theorem lubb_init_rev (W U w ws bs : Nat) :
    lubb_init W U (rev_bits W w) ws bs = SplitState.rev W (bulb_init W U w ws bs) := by
  simp only [lubb_init, bulb_init, SplitState.rev, SplitState.mk.injEq]
  refine ⟨?_, (rev_bits_zero W).symm, ?_, ?_, ?_, trivial⟩
  · rw [rev_bits_and, rev_bits_bulb_mask]
  · trivial
  · rw [rev_bits_shiftRight W _ _ (high_bits_ones_lt W _), rev_bits_high_bits_ones]
  · rw [rev_bits_high_bits_ones]

theorem lubb_reinit_rev (W U bs : Nat) (s : SplitState) :
    lubb_reinit W U bs (SplitState.rev W s) = SplitState.rev W (bulb_reinit W U bs s) := by
  simp only [lubb_reinit, bulb_reinit, SplitState.rev, SplitState.mk.injEq]
  refine ⟨?_, (rev_bits_zero W).symm, trivial, ?_, ?_, trivial⟩
  · rw [rev_bits_shiftLeft]
  · rw [rev_bits_shiftRight W _ _ (high_bits_ones_lt W _), rev_bits_high_bits_ones]
  · rw [rev_bits_high_bits_ones]

theorem lubb_body_rev (W U b_rem : Nat) (f : Bool) (s : SplitState)
    (hs : SplitState.Bounded W s) :
    lubb_body W U b_rem f (SplitState.rev W s) = SplitState.rev W (bulb_body W U b_rem f s) := by
  obtain ⟨hw, hsp, h0, h1⟩ := hs
  simp only [lubb_body, bulb_body, SplitState.rev, SplitState.mk.injEq]
  by_cases hi : s.sz_ind = 0
  · simp only [hi, if_true]
    refine ⟨?_, ?_, trivial, ?_, trivial, trivial⟩
    · rw [rev_bits_and, rev_bits_not]
    · rw [rev_bits_mod, rev_bits_or, rev_bits_shiftLeft_raw, rev_bits_and]
      exact Nat.mod_eq_of_lt (Nat.or_lt_two_pow (rev_bits_lt W _)
        (shiftRight_lt_two_pow _ (Nat.and_lt_two_pow _ (rev_bits_lt W _))))
    · rw [rev_bits_shiftRight W _ _ h0]
  · simp only [hi, if_false]
    refine ⟨?_, ?_, trivial, trivial, ?_, trivial⟩
    · rw [rev_bits_and, rev_bits_not]
    · rw [rev_bits_mod, rev_bits_or,
        rev_bits_shiftRight W _ _ (Nat.lt_of_le_of_lt Nat.and_le_left hw), rev_bits_and,
        or_mod_two_pow W _ _ (rev_bits_lt W _)]
    · rw [rev_bits_shiftRight W _ _ h1]

theorem while_loop_simulation {σ τ : Type} (f : σ → τ) (P : σ → Prop)
    (condB : σ → Bool) (bodyB : σ → σ) (condL : τ → Bool) (bodyL : τ → τ)
    (hP : ∀ s, P s → P (bodyB s)) (hbody : ∀ s, P s → bodyL (f s) = f (bodyB s))
    (hcond : ∀ s, P s → condL (f s) = condB s) (fuel : Nat) (s : σ) (hs : P s) :
    while_loop condL bodyL fuel (f s) = f (while_loop condB bodyB fuel s) ∧
      P (while_loop condB bodyB fuel s) ∧
      while_iterations condL bodyL fuel (f s) = while_iterations condB bodyB fuel s := by
  induction fuel generalizing s with
  | zero => exact ⟨rfl, hs, by simp [while_iterations, hcond s hs]⟩
  | succ fuel ih =>
    simp only [while_loop, while_iterations, hcond s hs]
    by_cases hc : condB s = true
    · simp only [hc, if_true, hbody s hs]
      obtain ⟨h1, h2, h3⟩ := ih (bodyB s) (hP s hs)
      exact ⟨h1, h2, by rw [h3]⟩
    · have hc' : condB s = false := by
        cases h : condB s with
        | false => rfl
        | true => exact absurd h hc
      simp only [hc', Bool.false_eq_true, if_false]
      exact ⟨trivial, hs, trivial⟩

theorem split_cond_rev (W : Nat) (s : SplitState) (hs : SplitState.Bounded W s) :
    (decide ((SplitState.rev W s).bw_space ≠ 0) && decide ((SplitState.rev W s).w ≠ 0))
      = (decide (s.bw_space ≠ 0) && decide (s.w ≠ 0)) := by
  have h : (SplitState.rev W s).w ≠ 0 ↔ s.w ≠ 0 :=
    not_congr (rev_bits_eq_zero_iff W s.w hs.1)
  simp only [SplitState.rev, ne_eq, decide_not] at h ⊢
  by_cases h0 : s.w = 0
  · simp [h0, rev_bits_zero]
  · have := h.mpr h0
    simp [h0, this]

theorem Block.rd_map (f : Nat → Nat) (hf : f 0 = 0) (b : Block) (i : Nat) :
    Block.rd (b.map f) i = f (b.rd i) := by
  unfold Block.rd
  simp only [List.getD_eq_getElem?_getD, List.getElem?_map]
  cases b[i]? <;> simp [hf]

theorem Block.wr_map (f : Nat → Nat) (b : Block) (i v : Nat) :
    Block.wr (b.map f) i (f v) = (b.wr i v).map f := by
  unfold Block.wr
  rw [List.map_set]

theorem Block.wellTyped_wr (W : Nat) (b : Block) (i v : Nat) (hb : b.WellTyped W)
    (hv : v < 2 ^ W) : (b.wr i v).WellTyped W := by
  intro x hx
  rcases List.mem_or_eq_of_mem_set hx with h | h
  · exact hb x h
  · exact h ▸ hv

theorem Block.rd_lt (W : Nat) (b : Block) (i : Nat) (hb : b.WellTyped W) : b.rd i < 2 ^ W := by
  unfold Block.rd
  rw [List.getD_eq_getElem?_getD]
  cases h : b[i]? with
  | none => exact Nat.two_pow_pos W
  | some x => exact hb x (List.getElem?_mem h)

theorem Block.map_rev_rev (W : Nat) (b : Block) (hb : b.WellTyped W) :
    (b.map (rev_bits W)).map (rev_bits W) = b := by
  rw [List.map_map]
  conv => rhs; rw [← List.map_id b]
  apply List.map_congr_left
  intro x hx
  exact rev_bits_rev_bits W x (hb x hx)

/-- The first loop of `little_unit_big_bit` on reversed input ends in the
reversed end state of the first loop of `big_unit_little_bit`. -/
theorem lubb_first_loop_rev (W U w ws bs : Nat) :
    while_loop (fun s => decide (s.bw_space ≠ 0) && decide (s.w ≠ 0))
        (lubb_body W U (bs % W % U) true) (split_fuel W) (lubb_init W U (rev_bits W w) ws bs)
      = SplitState.rev W
        (while_loop (fun s => decide (s.bw_space ≠ 0) && decide (s.w ≠ 0))
          (bulb_body W U (bs % W % U) true) (split_fuel W) (bulb_init W U w ws bs)) ∧
    SplitState.Bounded W
      (while_loop (fun s => decide (s.bw_space ≠ 0) && decide (s.w ≠ 0))
        (bulb_body W U (bs % W % U) true) (split_fuel W) (bulb_init W U w ws bs)) := by
  rw [lubb_init_rev]
  have h := while_loop_simulation (SplitState.rev W) (SplitState.Bounded W)
    (fun s => decide (s.bw_space ≠ 0) && decide (s.w ≠ 0)) (bulb_body W U (bs % W % U) true)
    (fun s => decide (s.bw_space ≠ 0) && decide (s.w ≠ 0)) (lubb_body W U (bs % W % U) true)
    (bulb_body_bounded W U _ true) (lubb_body_rev W U _ true) (split_cond_rev W)
    (split_fuel W) (bulb_init W U w ws bs) (bulb_init_bounded W U w ws bs)
  exact ⟨h.1, h.2.1⟩

theorem lubb_second_loop_rev (W U b_rem bs : Nat) (s : SplitState) :
    while_loop (fun s => decide (s.w ≠ 0)) (lubb_body W U b_rem false) (split_fuel W)
        (lubb_reinit W U bs (SplitState.rev W s))
      = SplitState.rev W
        (while_loop (fun s => decide (s.w ≠ 0)) (bulb_body W U b_rem false) (split_fuel W)
          (bulb_reinit W U bs s)) := by
  rw [lubb_reinit_rev]
  have hcond : ∀ t, SplitState.Bounded W t →
      decide ((SplitState.rev W t).w ≠ 0) = decide (t.w ≠ 0) := by
    intro t ht
    have h : (SplitState.rev W t).w ≠ 0 ↔ t.w ≠ 0 := not_congr (rev_bits_eq_zero_iff W t.w ht.1)
    exact decide_eq_decide.mpr h
  exact (while_loop_simulation (SplitState.rev W) (SplitState.Bounded W)
    (fun s => decide (s.w ≠ 0)) (bulb_body W U b_rem false)
    (fun s => decide (s.w ≠ 0)) (lubb_body W U b_rem false)
    (bulb_body_bounded W U _ false) (lubb_body_rev W U _ false) hcond
    (split_fuel W) (bulb_reinit W U bs s) (bulb_reinit_bounded W U bs s)).1

theorem inject_lubb_rev (U W BB w ws : Nat) (b : Block) (bs : Nat) (hb : b.WellTyped W) :
    (inject_little_unit_big_bit U W BB (rev_bits W w) ws (b.map (rev_bits W)) bs).1
      = (inject_big_unit_little_bit U W BB w ws b bs).1.map (rev_bits W) ∧
    (inject_big_unit_little_bit U W BB w ws b bs).1.WellTyped W := by
  unfold inject_little_unit_big_bit inject_big_unit_little_bit
  by_cases hg : bs + ws ≤ BB
  · simp only [hg, if_true]
    obtain ⟨hl1, hbd1⟩ := lubb_first_loop_rev W U w ws bs
    rw [hl1]
    generalize while_loop (fun s => decide (s.bw_space ≠ 0) && decide (s.w ≠ 0))
      (bulb_body W U (bs % W % U) true) (split_fuel W) (bulb_init W U w ws bs) = s1 at hbd1
    rw [lubb_second_loop_rev]
    generalize while_loop (fun s => decide (s.w ≠ 0)) (bulb_body W U (bs % W % U) false)
      (split_fuel W) (bulb_reinit W U bs s1) = s2
    simp only [SplitState.rev]
    rw [← rev_bits_bulb_mask, Block.rd_map _ (rev_bits_zero W), ← rev_bits_and, Block.wr_map]
    have hb1 : Block.WellTyped W (b.wr (bs / W) (b.rd (bs / W) &&&
        (high_bits W (all_ones W) (bs % W - bs % W % U) |||
          high_bits W (all_ones W) (bs % W % U) >>>
            (bs % W - bs % W % U + U - bs % W % U)))) :=
      Block.wellTyped_wr W b _ _ hb
        (Nat.lt_of_le_of_lt Nat.and_le_left (Block.rd_lt W b _ hb))
    generalize b.wr (bs / W) (b.rd (bs / W) &&&
        (high_bits W (all_ones W) (bs % W - bs % W % U) |||
          high_bits W (all_ones W) (bs % W % U) >>>
            (bs % W - bs % W % U + U - bs % W % U))) = b1 at hb1
    have hv2 : (rev_bits W (b1.rd (bs / W)) ||| rev_bits W s1.w_split <<< (bs % W - bs % W % U))
        % 2 ^ W = rev_bits W (b1.rd (bs / W) ||| s1.w_split >>> (bs % W - bs % W % U)) := by
      rw [rev_bits_or, rev_bits_shiftRight W _ _ hbd1.2.1,
        or_mod_two_pow W _ _ (rev_bits_lt W _)]
    rw [Block.rd_map _ (rev_bits_zero W), hv2, Block.wr_map]
    have hb2 : Block.WellTyped W
        (b1.wr (bs / W) (b1.rd (bs / W) ||| s1.w_split >>> (bs % W - bs % W % U))) :=
      Block.wellTyped_wr W b1 _ _ hb1
        (Nat.or_lt_two_pow (Block.rd_lt W b1 _ hb1) (shiftRight_lt_two_pow _ hbd1.2.1))
    generalize b1.wr (bs / W) (b1.rd (bs / W) ||| s1.w_split >>> (bs % W - bs % W % U))
      = b2 at hb2
    have hv3 : rev_bits W s2.w_split >>> U = rev_bits W (s2.w_split <<< U % 2 ^ W) := by
      rw [rev_bits_shiftLeft]
    by_cases h0 : s1.w = 0
    · have h0' : rev_bits W s1.w = 0 := (rev_bits_eq_zero_iff W _ hbd1.1).mpr h0
      rw [if_neg (not_not.mpr h0'), if_neg (not_not.mpr h0)]
      exact ⟨rfl, hb2⟩
    · have h0' : rev_bits W s1.w ≠ 0 := fun h => h0 ((rev_bits_eq_zero_iff W _ hbd1.1).mp h)
      rw [if_pos h0', if_pos h0, hv3, Block.wr_map]
      exact ⟨rfl, Block.wellTyped_wr W b2 _ _ hb2 (Nat.mod_lt _ (Nat.two_pow_pos W))⟩
  · simp only [hg, if_false]
    exact ⟨trivial, hb⟩


/-- C19: mirror symmetry of the unit-ordered injectors.  With `rev` the
reversal of the `WordBits` bits of a word, applied to every word of a block,
the block produced by the `big_unit_little_bit` `inject(w, word_seen, b,
block_seen)` is `rev` of the block produced by the `little_unit_big_bit`
`inject(rev w, word_seen, rev b, block_seen)`, for every unit width, word, bit
count, cursor and every block of `WordBits`-bit words. -/
theorem big_unit_little_bit_mirrors_little_unit_big_bit (U W BB w ws : Nat) (b : Block)
    (bs : Nat) (hb : b.WellTyped W) :
    (inject_big_unit_little_bit U W BB w ws b bs).1
      = (inject_little_unit_big_bit U W BB (rev_bits W w) ws (b.map (rev_bits W)) bs).1.map
        (rev_bits W) := by
  obtain ⟨h1, h2⟩ := inject_lubb_rev U W BB w ws b bs hb
  rw [h1, Block.map_rev_rev W _ h2]

theorem big_unit_little_bit_mirrors_little_unit_big_bit_witness :
    (inject_big_unit_little_bit 8 32 64 0x12345678 20 [0xC0FFEE00, 0xFFFFFFFF] 12).1
      = (inject_little_unit_big_bit 8 32 64 (rev_bits 32 0x12345678) 20
          (List.map (rev_bits 32) [0xC0FFEE00, 0xFFFFFFFF]) 12).1.map (rev_bits 32) :=
  big_unit_little_bit_mirrors_little_unit_big_bit 8 32 64 0x12345678 20
    [0xC0FFEE00, 0xFFFFFFFF] 12 (by unfold Block.WellTyped; decide)

/-! ## Termination of the splitting loops -/

/-- A loop whose condition fails after `N` unconditional iterations of its body
stops after at most `N` iterations. -/
theorem while_iterations_of_bound {σ : Type} (cond : σ → Bool) (body : σ → σ)
    (fuel N : Nat) (s : σ) (hN : N ≤ fuel) (hf : cond (body^[N] s) = false) :
    ∃ n, n ≤ N ∧ while_iterations cond body fuel s = some n := by
  induction fuel generalizing s N with
  | zero =>
    have hN0 : N = 0 := by omega
    subst hN0
    exact ⟨0, Nat.le_refl _, by simp only [while_iterations]; simp at hf; simp [hf]⟩
  | succ fuel ih =>
    simp only [while_iterations]
    by_cases hc : cond s = true
    · have hN0 : N ≠ 0 := by
        rintro rfl
        simp only [Function.iterate_zero, id_eq] at hf
        rw [hf] at hc
        cases hc
      obtain ⟨M, rfl⟩ : ∃ M, N = M + 1 := ⟨N - 1, by omega⟩
      rw [Function.iterate_succ_apply] at hf
      obtain ⟨n, hn, hw⟩ := ih M (body s) (by omega) hf
      exact ⟨n + 1, by omega, by simp [hc, hw]⟩
    · exact ⟨0, Nat.zero_le _, by simp [hc]⟩

theorem while_loop_invariant {σ : Type} (P : σ → Prop) (cond : σ → Bool) (body : σ → σ)
    (hP : ∀ s, P s → P (body s)) (fuel : Nat) (s : σ) (hs : P s) :
    P (while_loop cond body fuel s) := by
  induction fuel generalizing s with
  | zero => exact hs
  | succ fuel ih =>
    simp only [while_loop]
    split
    · exact ih _ (hP s hs)
    · exact hs

/-- The counters `sz_ind` and `bw_space` along the iterations of a body that
toggles `sz_ind` and subtracts `sz[sz_ind]` from `bw_space`. -/
theorem split_counters (U b_rem : Nat) (hb : b_rem ≤ U) (body : SplitState → SplitState)
    (hstep : ∀ s, (body s).sz_ind = 1 - s.sz_ind ∧
      (body s).bw_space = s.bw_space - (if s.sz_ind = 0 then ((U - b_rem : Nat) : Int)
        else (b_rem : Int)))
    (s : SplitState) (h0 : s.sz_ind = 0) (q : Nat) :
    (body^[2 * q] s).sz_ind = 0 ∧
    (body^[2 * q] s).bw_space = s.bw_space - (q : Int) * U ∧
    (body^[2 * q + 1] s).sz_ind = 1 ∧
    (body^[2 * q + 1] s).bw_space = s.bw_space - (q : Int) * U - ((U - b_rem : Nat) : Int) := by
  have hodd : ∀ t : SplitState, t.sz_ind = 0 →
      (body t).sz_ind = 1 ∧ (body t).bw_space = t.bw_space - ((U - b_rem : Nat) : Int) := by
    intro t ht
    obtain ⟨h1, h2⟩ := hstep t
    rw [ht] at h1
    rw [if_pos ht] at h2
    exact ⟨h1, h2⟩
  induction q with
  | zero =>
    obtain ⟨h1, h2⟩ := hodd s h0
    refine ⟨h0, by simp, h1, ?_⟩
    simp only [Nat.mul_zero, Nat.zero_add, Function.iterate_one, h2]
    simp
  | succ q ih =>
    obtain ⟨_, _, i3, i4⟩ := ih
    have e : 2 * (q + 1) = (2 * q + 1) + 1 := by omega
    obtain ⟨h1, h2⟩ := hstep (body^[2 * q + 1] s)
    rw [i3] at h1
    have hne : ¬ ((body^[2 * q + 1] s).sz_ind = 0) := by rw [i3]; decide
    rw [if_neg hne, i4] at h2
    have hev0 : (body^[2 * (q + 1)] s).sz_ind = 0 := by
      rw [e, Function.iterate_succ_apply']; exact h1
    have hev1 : (body^[2 * (q + 1)] s).bw_space = s.bw_space - ((q + 1 : Nat) : Int) * U := by
      rw [e, Function.iterate_succ_apply', h2]
      push_cast [Nat.cast_sub hb]
      ring
    obtain ⟨h3, h4⟩ := hodd (body^[2 * (q + 1)] s) hev0
    refine ⟨hev0, hev1, ?_, ?_⟩
    · rw [Function.iterate_succ_apply']; exact h3
    · rw [Function.iterate_succ_apply', h4, hev1]

/-- The first splitting loop: with `UnitBits >= 1` dividing `WordBits`, a body
that toggles `sz_ind` and subtracts `sz[sz_ind]` from `bw_space`, started with
`sz_ind = 0` and `bw_space = WordBits - last_word_seen`, stops within
`2 * WordBits / UnitBits` iterations and `bw_space` never drops below zero. -/
theorem first_loop_terminates (W U lws : Nat) (hU : 1 ≤ U) (hdvd : U ∣ W) (hlws : lws < W)
    (body : SplitState → SplitState)
    (hstep : ∀ s, (body s).sz_ind = 1 - s.sz_ind ∧
      (body s).bw_space = s.bw_space - (if s.sz_ind = 0 then ((U - lws % U : Nat) : Int)
        else ((lws % U : Nat) : Int)))
    (init : SplitState) (h0 : init.sz_ind = 0) (hbw : init.bw_space = (W : Int) - (lws : Int)) :
    ∃ n, n ≤ 2 * W / U ∧
      while_iterations (fun s => decide (s.bw_space ≠ 0) && decide (s.w ≠ 0)) body
        (split_fuel W) init = some n ∧
      ∀ t, t ≤ n → 0 ≤ (body^[t] init).bw_space := by
  obtain ⟨c, rfl⟩ := hdvd
  have hr : lws % U < U := Nat.mod_lt _ hU
  have ha : lws / U < c := Nat.div_lt_of_lt_mul hlws
  have hdm : lws = U * (lws / U) + lws % U := (Nat.div_add_mod lws U).symm
  generalize lws % U = r at hstep hr hdm
  generalize lws / U = a at ha hdm
  have hrle : r ≤ U := Nat.le_of_lt hr
  have hl : (lws : Int) = (U : Int) * (a : Int) + (r : Int) := by exact_mod_cast hdm
  obtain ⟨q, hq⟩ : ∃ q, c = a + q + 1 := ⟨c - a - 1, by omega⟩
  have hcount := split_counters U r hrle body hstep init h0
  -- the value of `bw_space` after `t` iterations, for `t ≤ 2 * q + 1`
  have heven : ∀ q', q' ≤ q →
      (body^[2 * q'] init).bw_space = ((U * (q - q') + (U - r) : Nat) : Int) := by
    intro q' hq'
    obtain ⟨d, rfl⟩ : ∃ d, q = q' + d := ⟨q - q', by omega⟩
    rw [(hcount q').2.1, hbw, hl, hq, Nat.add_sub_cancel_left]
    push_cast [Nat.cast_sub hrle]
    ring
  have hodd : ∀ q', q' ≤ q →
      (body^[2 * q' + 1] init).bw_space = ((U * (q - q') : Nat) : Int) := by
    intro q' hq'
    obtain ⟨d, rfl⟩ : ∃ d, q = q' + d := ⟨q - q', by omega⟩
    rw [(hcount q').2.2.2, hbw, hl, hq, Nat.add_sub_cancel_left]
    push_cast [Nat.cast_sub hrle]
    ring
  have hzero : (fun s : SplitState => decide (s.bw_space ≠ 0) && decide (s.w ≠ 0))
      (body^[2 * q + 1] init) = false := by
    simp only [hodd q (Nat.le_refl q), Nat.sub_self, Nat.mul_zero]
    simp
  have hfuel : 2 * q + 1 ≤ split_fuel (U * c) := by
    unfold split_fuel
    have : c ≤ U * c := Nat.le_mul_of_pos_left c hU
    omega
  obtain ⟨n, hn, hw⟩ := while_iterations_of_bound
    (fun s : SplitState => decide (s.bw_space ≠ 0) && decide (s.w ≠ 0)) body
    (split_fuel (U * c)) (2 * q + 1) init hfuel hzero
  have hdiv : 2 * (U * c) / U = 2 * c := by
    rw [Nat.mul_left_comm, Nat.mul_div_cancel_left _ hU]
  refine ⟨n, by rw [hdiv]; omega, hw, fun t ht => ?_⟩
  rcases Nat.even_or_odd' t with ⟨q', rfl | rfl⟩
  · rw [heven q' (by omega)]
    exact Int.ofNat_nonneg _
  · rw [hodd q' (by omega)]
    exact Int.ofNat_nonneg _

theorem lubb_body_counters (W U b_rem : Nat) (s : SplitState) :
    (lubb_body W U b_rem true s).sz_ind = 1 - s.sz_ind ∧
      (lubb_body W U b_rem true s).bw_space = s.bw_space -
        (if s.sz_ind = 0 then ((U - b_rem : Nat) : Int) else (b_rem : Int)) := by
  simp only [lubb_body, if_true, true_and]
  split <;> rfl

theorem bulb_body_counters (W U b_rem : Nat) (s : SplitState) :
    (bulb_body W U b_rem true s).sz_ind = 1 - s.sz_ind ∧
      (bulb_body W U b_rem true s).bw_space = s.bw_space -
        (if s.sz_ind = 0 then ((U - b_rem : Nat) : Int) else (b_rem : Int)) := by
  simp only [bulb_body, if_true, true_and]
  split <;> rfl

theorem shiftLeft_mod_shiftLeft_mod (W m a U : Nat) :
    (((m <<< a) % 2 ^ W) <<< U) % 2 ^ W = (m <<< (a + U)) % 2 ^ W := by
  apply Nat.eq_of_testBit_eq
  intro j
  simp only [Nat.testBit_mod_two_pow, Nat.testBit_shiftLeft]
  by_cases h1 : j < W
  · by_cases h2 : j ≥ a + U
    · have h3 : j ≥ U := by omega
      have h4 : j - U < W := by omega
      have h5 : j - U ≥ a := by omega
      have h6 : j - U - a = j - (a + U) := by omega
      simp [h1, h2, h3, h4, h5, h6]
    · by_cases h3 : j ≥ U
      · have h5 : ¬ (j - U ≥ a) := by omega
        simp [h1, h2, h3, h5]
      · simp [h1, h2, h3]
  · simp [h1]

theorem testBit_not_mask (W m i : Nat) (hi : i < W) :
    (all_ones W ^^^ m).testBit i = !m.testBit i := by
  simp [all_ones, Nat.testBit_xor, Nat.testBit_two_pow_sub_one, hi]

theorem testBit_lubb_mask0 (W U r p : Nat) (hU : U ≤ W) (hr : r ≤ U) (hp : p < U) :
    ((low_bits W (all_ones W) (U - r) <<< r) % 2 ^ W).testBit p = decide (r ≤ p) := by
  simp only [Nat.testBit_mod_two_pow, Nat.testBit_shiftLeft, testBit_low_bits, all_ones,
    Nat.testBit_two_pow_sub_one]
  by_cases h : r ≤ p
  · have h1 : p < W := by omega
    have h2 : p - r < W := by omega
    have h3 : W - (U - r) + (p - r) < W := by omega
    simp [h, h1, h2, h3]
  · simp [h]

theorem testBit_lubb_mask1 (W U r p : Nat) (hU : U ≤ W) (hr : r ≤ U) (hp : p < U) :
    (low_bits W (all_ones W) r).testBit p = decide (p < r) := by
  simp only [testBit_low_bits, all_ones, Nat.testBit_two_pow_sub_one]
  have h1 : p < W := by omega
  by_cases h : p < r
  · have h3 : W - r + p < W := by omega
    simp [h, h1, h3]
  · have h3 : ¬ (W - r + p < W) := by omega
    simp [h, h3]

/-- Two iterations of the body of `little_unit_big_bit`: both masks move up by
a unit and `w` loses the bits under both masks. -/
theorem lubb_double_step (W U b_rem : Nat) (f : Bool) (s : SplitState) (hs : s.sz_ind ≤ 1) :
    (lubb_body W U b_rem f (lubb_body W U b_rem f s)).sz_ind = s.sz_ind ∧
    (lubb_body W U b_rem f (lubb_body W U b_rem f s)).masks0 = (s.masks0 <<< U) % 2 ^ W ∧
    (lubb_body W U b_rem f (lubb_body W U b_rem f s)).masks1 = (s.masks1 <<< U) % 2 ^ W ∧
    ∀ i, (lubb_body W U b_rem f (lubb_body W U b_rem f s)).w.testBit i = true →
      s.w.testBit i = true ∧ (all_ones W ^^^ s.masks0).testBit i = true ∧
        (all_ones W ^^^ s.masks1).testBit i = true := by
  have hcases : s.sz_ind = 0 ∨ s.sz_ind = 1 := by omega
  rcases hcases with h | h
  · simp only [lubb_body, h, if_true, Nat.sub_zero, Nat.one_ne_zero, if_false, Nat.sub_self,
      Nat.testBit_and, Bool.and_eq_true, true_and]
    intro i hi
    exact ⟨hi.1.1, hi.1.2, hi.2⟩
  · simp only [lubb_body, h, Nat.one_ne_zero, if_false, Nat.sub_self, if_true, Nat.sub_zero,
      Nat.testBit_and, Bool.and_eq_true, true_and]
    intro i hi
    exact ⟨hi.1.1, hi.2, hi.1.2⟩

theorem lubb_even_iterates (W U b_rem : Nat) (f : Bool) (s : SplitState) (hs : s.sz_ind ≤ 1)
    (h0 : s.masks0 < 2 ^ W) (h1 : s.masks1 < 2 ^ W) (q : Nat) :
    ((lubb_body W U b_rem f)^[2 * q] s).sz_ind = s.sz_ind ∧
    ((lubb_body W U b_rem f)^[2 * q] s).masks0 = (s.masks0 <<< (q * U)) % 2 ^ W ∧
    ((lubb_body W U b_rem f)^[2 * q] s).masks1 = (s.masks1 <<< (q * U)) % 2 ^ W ∧
    ∀ i, ((lubb_body W U b_rem f)^[2 * q] s).w.testBit i = true →
      s.w.testBit i = true ∧ ∀ q', q' < q →
        (all_ones W ^^^ (s.masks0 <<< (q' * U)) % 2 ^ W).testBit i = true ∧
        (all_ones W ^^^ (s.masks1 <<< (q' * U)) % 2 ^ W).testBit i = true := by
  induction q with
  | zero =>
    simp only [Nat.mul_zero, Function.iterate_zero, id_eq, Nat.zero_mul, Nat.shiftLeft_zero,
      Nat.mod_eq_of_lt h0, Nat.mod_eq_of_lt h1, true_and]
    intro i hi
    exact ⟨hi, fun q' hq' => absurd hq' (Nat.not_lt_zero _)⟩
  | succ q ih =>
    obtain ⟨i1, i2, i3, i4⟩ := ih
    have e : 2 * (q + 1) = (2 * q + 1) + 1 := by omega
    rw [e, Function.iterate_succ_apply', Function.iterate_succ_apply']
    obtain ⟨d1, d2, d3, d4⟩ := lubb_double_step W U b_rem f
      ((lubb_body W U b_rem f)^[2 * q] s) (by rw [i1]; exact hs)
    have hq : (q + 1) * U = q * U + U := Nat.succ_mul q U
    refine ⟨by rw [d1, i1], ?_, ?_, fun i hi => ?_⟩
    · rw [d2, i2, shiftLeft_mod_shiftLeft_mod, hq]
    · rw [d3, i3, shiftLeft_mod_shiftLeft_mod, hq]
    · obtain ⟨g1, g2, g3⟩ := d4 i hi
      obtain ⟨k1, k2⟩ := i4 i g1
      refine ⟨k1, fun q' hq' => ?_⟩
      rcases Nat.lt_succ_iff_lt_or_eq.mp hq' with hlt | rfl
      · exact k2 q' hlt
      · rw [i2] at g2
        rw [i3] at g3
        exact ⟨g2, g3⟩

/-- The second splitting loop of `little_unit_big_bit`: from any end state of
the first loop whose `w` fits the word, it stops within
`2 * WordBits / UnitBits` iterations. -/
theorem lubb_second_loop_terminates (W U bs : Nat) (hU : 1 ≤ U) (hdvd : U ∣ W) (hW : 0 < W)
    (s1 : SplitState) (hw : s1.w < 2 ^ W) (hind : s1.sz_ind ≤ 1) :
    ∃ n, n ≤ 2 * W / U ∧
      while_iterations (fun s => decide (s.w ≠ 0)) (lubb_body W U (bs % W % U) false)
        (split_fuel W) (lubb_reinit W U bs s1) = some n := by
  obtain ⟨c, rfl⟩ := hdvd
  have hlws : bs % (U * c) < U * c := Nat.mod_lt _ hW
  have hr : bs % (U * c) % U < U := Nat.mod_lt _ hU
  have ha : bs % (U * c) / U < c := Nat.div_lt_of_lt_mul hlws
  have hdm : bs % (U * c) = U * (bs % (U * c) / U) + bs % (U * c) % U :=
    (Nat.div_add_mod _ U).symm
  generalize hrr : bs % (U * c) % U = r at hr hdm
  generalize bs % (U * c) / U = a at ha hdm
  have hc : 0 < c := Nat.lt_of_le_of_lt (Nat.zero_le _) ha
  have hUW : U ≤ U * c := Nat.le_mul_of_pos_right U hc
  have hmul : U * a + U ≤ U * c := by
    have : U * (a + 1) ≤ U * c := Nat.mul_le_mul_left U ha
    rw [Nat.mul_add, Nat.mul_one] at this
    exact this
  -- after `2 * (a + 1)` iterations no bit of `w` is left
  have hzero : ((lubb_body (U * c) U r false)^[2 * (a + 1)]
      (lubb_reinit (U * c) U bs s1)).w = 0 := by
    apply Nat.eq_of_testBit_eq
    intro i
    rw [Nat.zero_testBit]
    cases hbit : ((lubb_body (U * c) U r false)^[2 * (a + 1)]
      (lubb_reinit (U * c) U bs s1)).w.testBit i with
    | false => rfl
    | true =>
      exfalso
      obtain ⟨_, _, _, hinv⟩ := lubb_even_iterates (U * c) U r false
        (lubb_reinit (U * c) U bs s1) hind
        (Nat.mod_lt _ (Nat.two_pow_pos _)) (low_bits_ones_lt _ _) (a + 1)
      obtain ⟨hwi, hmasks⟩ := hinv i hbit
      simp only [lubb_reinit, hrr, Nat.testBit_shiftRight] at hwi hmasks
      rw [hdm] at hwi
      -- the bit lies below `U * a + U`
      have hi : i < U * a + U := by
        by_contra hge
        have : U * c ≤ U * c - (U * a + r - r) - U + i := by omega
        rw [testBit_eq_false_of_lt hw this] at hwi
        cases hwi
      have hiW : i < U * c := by omega
      have hq : i / U < a + 1 := by
        apply Nat.div_lt_of_lt_mul
        rw [Nat.mul_add, Nat.mul_one]
        exact hi
      have hp : i % U < U := Nat.mod_lt _ hU
      have hdi : U * (i / U) + i % U = i := Nat.div_add_mod i U
      obtain ⟨hm0, hm1⟩ := hmasks (i / U) hq
      rw [testBit_not_mask _ _ _ hiW, Nat.testBit_mod_two_pow, Nat.testBit_shiftLeft] at hm0 hm1
      have hge : i ≥ i / U * U := by rw [Nat.mul_comm]; omega
      have hsub : i - i / U * U = i % U := by rw [Nat.mul_comm]; omega
      rw [hsub] at hm0 hm1
      rw [testBit_lubb_mask0 (U * c) U r (i % U) hUW (Nat.le_of_lt hr) hp] at hm0
      rw [testBit_lubb_mask1 (U * c) U r (i % U) hUW (Nat.le_of_lt hr) hp] at hm1
      simp only [hiW, hge, decide_True, Bool.true_and, Bool.not_eq_true',
        decide_eq_false_iff_not] at hm0 hm1
      omega
  have hfalse : (fun s : SplitState => decide (s.w ≠ 0))
      ((lubb_body (U * c) U r false)^[2 * (a + 1)] (lubb_reinit (U * c) U bs s1)) = false := by
    simp only [hzero]
    simp
  have hfuel : 2 * (a + 1) ≤ split_fuel (U * c) := by
    unfold split_fuel
    have : c ≤ U * c := Nat.le_mul_of_pos_left c hU
    omega
  obtain ⟨n, hn, hwi⟩ := while_iterations_of_bound
    (fun s : SplitState => decide (s.w ≠ 0)) (lubb_body (U * c) U r false)
    (split_fuel (U * c)) (2 * (a + 1)) (lubb_reinit (U * c) U bs s1) hfuel hfalse
  have hdiv : 2 * (U * c) / U = 2 * c := by
    rw [Nat.mul_left_comm, Nat.mul_div_cancel_left _ hU]
  exact ⟨n, by rw [hdiv]; omega, hwi⟩

theorem lubb_first_loop_end_bounded (W U w ws bs : Nat) :
    (while_loop (fun s => decide (s.bw_space ≠ 0) && decide (s.w ≠ 0))
      (lubb_body W U (bs % W % U) true) (split_fuel W) (lubb_init W U w ws bs)).w < 2 ^ W ∧
    (while_loop (fun s => decide (s.bw_space ≠ 0) && decide (s.w ≠ 0))
      (lubb_body W U (bs % W % U) true) (split_fuel W) (lubb_init W U w ws bs)).sz_ind ≤ 1 := by
  apply while_loop_invariant (fun s : SplitState => s.w < 2 ^ W ∧ s.sz_ind ≤ 1)
  · intro s hs
    refine ⟨Nat.lt_of_le_of_lt ?_ hs.1, ?_⟩
    · simp only [lubb_body]
      exact Nat.and_le_left
    · simp only [lubb_body]
      omega
  · refine ⟨?_, Nat.zero_le _⟩
    simp only [lubb_init]
    exact Nat.and_lt_two_pow _ (Nat.mod_lt _ (Nat.two_pow_pos W))

theorem bulb_first_loop_end_sz_ind (W U w ws bs : Nat) :
    (while_loop (fun s => decide (s.bw_space ≠ 0) && decide (s.w ≠ 0))
      (bulb_body W U (bs % W % U) true) (split_fuel W) (bulb_init W U w ws bs)).sz_ind ≤ 1 := by
  apply while_loop_invariant (fun s : SplitState => s.sz_ind ≤ 1)
  · intro s _
    simp only [bulb_body]
    omega
  · exact Nat.zero_le _

/-- The second loop of `big_unit_little_bit` takes as many iterations as the
second loop of `little_unit_big_bit` on the reversed state. -/
theorem bulb_second_loop_iterations (W U b_rem bs : Nat) (s : SplitState) :
    while_iterations (fun s => decide (s.w ≠ 0)) (bulb_body W U b_rem false) (split_fuel W)
        (bulb_reinit W U bs s)
      = while_iterations (fun s => decide (s.w ≠ 0)) (lubb_body W U b_rem false) (split_fuel W)
        (lubb_reinit W U bs (SplitState.rev W s)) := by
  rw [lubb_reinit_rev]
  have hcond : ∀ t, SplitState.Bounded W t →
      decide ((SplitState.rev W t).w ≠ 0) = decide (t.w ≠ 0) := by
    intro t ht
    have h : (SplitState.rev W t).w ≠ 0 ↔ t.w ≠ 0 := not_congr (rev_bits_eq_zero_iff W t.w ht.1)
    exact decide_eq_decide.mpr h
  exact (while_loop_simulation (SplitState.rev W) (SplitState.Bounded W)
    (fun s => decide (s.w ≠ 0)) (bulb_body W U b_rem false)
    (fun s => decide (s.w ≠ 0)) (lubb_body W U b_rem false)
    (bulb_body_bounded W U _ false) (lubb_body_rev W U _ false) hcond
    (split_fuel W) (bulb_reinit W U bs s) (bulb_reinit_bounded W U bs s)).2.2.symm

/-- C16: termination of the loops of the unit-ordered word injectors.  For
`little_unit_big_bit` and for `big_unit_little_bit`, for every `UnitBits >= 1`
dividing `WordBits >= 1`, every word, bit count and cursor, the loop
`while (bw_space && w)` and the loop `while (w)` (entered from the state the
first loop ends in) each stop after at most `2 * WordBits / UnitBits`
iterations, and `bw_space` is never below zero in the first loop. -/
theorem splitting_loops_terminate (W U w ws bs : Nat) (hU : 1 ≤ U) (hdvd : U ∣ W)
    (hW : 0 < W) :
    (∃ n1 n2, n1 ≤ 2 * W / U ∧ n2 ≤ 2 * W / U ∧
      while_iterations (fun s => decide (s.bw_space ≠ 0) && decide (s.w ≠ 0))
        (lubb_body W U (bs % W % U) true) (split_fuel W) (lubb_init W U w ws bs) = some n1 ∧
      (∀ t, t ≤ n1 →
        0 ≤ ((lubb_body W U (bs % W % U) true)^[t] (lubb_init W U w ws bs)).bw_space) ∧
      while_iterations (fun s => decide (s.w ≠ 0)) (lubb_body W U (bs % W % U) false)
        (split_fuel W)
        (lubb_reinit W U bs
          (while_loop (fun s => decide (s.bw_space ≠ 0) && decide (s.w ≠ 0))
            (lubb_body W U (bs % W % U) true) (split_fuel W) (lubb_init W U w ws bs)))
        = some n2) ∧
    (∃ n1 n2, n1 ≤ 2 * W / U ∧ n2 ≤ 2 * W / U ∧
      while_iterations (fun s => decide (s.bw_space ≠ 0) && decide (s.w ≠ 0))
        (bulb_body W U (bs % W % U) true) (split_fuel W) (bulb_init W U w ws bs) = some n1 ∧
      (∀ t, t ≤ n1 →
        0 ≤ ((bulb_body W U (bs % W % U) true)^[t] (bulb_init W U w ws bs)).bw_space) ∧
      while_iterations (fun s => decide (s.w ≠ 0)) (bulb_body W U (bs % W % U) false)
        (split_fuel W)
        (bulb_reinit W U bs
          (while_loop (fun s => decide (s.bw_space ≠ 0) && decide (s.w ≠ 0))
            (bulb_body W U (bs % W % U) true) (split_fuel W) (bulb_init W U w ws bs)))
        = some n2) := by
  have hlws : bs % W < W := Nat.mod_lt _ hW
  constructor
  · obtain ⟨n1, h1, h2, h3⟩ := first_loop_terminates W U (bs % W) hU hdvd hlws
      (lubb_body W U (bs % W % U) true) (lubb_body_counters W U _) (lubb_init W U w ws bs)
      rfl rfl
    obtain ⟨hb1, hb2⟩ := lubb_first_loop_end_bounded W U w ws bs
    obtain ⟨n2, h4, h5⟩ := lubb_second_loop_terminates W U bs hU hdvd hW _ hb1 hb2
    exact ⟨n1, n2, h1, h4, h2, h3, h5⟩
  · obtain ⟨n1, h1, h2, h3⟩ := first_loop_terminates W U (bs % W) hU hdvd hlws
      (bulb_body W U (bs % W % U) true) (bulb_body_counters W U _) (bulb_init W U w ws bs)
      rfl rfl
    obtain ⟨n2, h4, h5⟩ := lubb_second_loop_terminates W U bs hU hdvd hW
      (SplitState.rev W
        (while_loop (fun s => decide (s.bw_space ≠ 0) && decide (s.w ≠ 0))
          (bulb_body W U (bs % W % U) true) (split_fuel W) (bulb_init W U w ws bs)))
      (rev_bits_lt W _) (bulb_first_loop_end_sz_ind W U w ws bs)
    rw [← bulb_second_loop_iterations] at h5
    exact ⟨n1, n2, h1, h4, h2, h3, h5⟩

theorem splitting_loops_terminate_witness :
    (∃ n1 n2, n1 ≤ 2 * 32 / 8 ∧ n2 ≤ 2 * 32 / 8 ∧
      while_iterations (fun s => decide (s.bw_space ≠ 0) && decide (s.w ≠ 0))
        (lubb_body 32 8 (12 % 32 % 8) true) (split_fuel 32) (lubb_init 32 8 0x12345678 20 12)
        = some n1 ∧
      (∀ t, t ≤ n1 →
        0 ≤ ((lubb_body 32 8 (12 % 32 % 8) true)^[t] (lubb_init 32 8 0x12345678 20 12)).bw_space) ∧
      while_iterations (fun s => decide (s.w ≠ 0)) (lubb_body 32 8 (12 % 32 % 8) false)
        (split_fuel 32)
        (lubb_reinit 32 8 12
          (while_loop (fun s => decide (s.bw_space ≠ 0) && decide (s.w ≠ 0))
            (lubb_body 32 8 (12 % 32 % 8) true) (split_fuel 32)
            (lubb_init 32 8 0x12345678 20 12)))
        = some n2) ∧
    (∃ n1 n2, n1 ≤ 2 * 32 / 8 ∧ n2 ≤ 2 * 32 / 8 ∧
      while_iterations (fun s => decide (s.bw_space ≠ 0) && decide (s.w ≠ 0))
        (bulb_body 32 8 (12 % 32 % 8) true) (split_fuel 32) (bulb_init 32 8 0x12345678 20 12)
        = some n1 ∧
      (∀ t, t ≤ n1 →
        0 ≤ ((bulb_body 32 8 (12 % 32 % 8) true)^[t] (bulb_init 32 8 0x12345678 20 12)).bw_space) ∧
      while_iterations (fun s => decide (s.w ≠ 0)) (bulb_body 32 8 (12 % 32 % 8) false)
        (split_fuel 32)
        (bulb_reinit 32 8 12
          (while_loop (fun s => decide (s.bw_space ≠ 0) && decide (s.w ≠ 0))
            (bulb_body 32 8 (12 % 32 % 8) true) (split_fuel 32)
            (bulb_init 32 8 0x12345678 20 12)))
        = some n2) :=
  splitting_loops_terminate 32 8 0x12345678 20 12 (by decide) (by decide) (by decide)

/-! ## Index and shift safety of `big_unit_big_bit` -/

/-- The body of `inject_big_unit_big_bit` reads and writes the block at
`last_word_ind` and `last_word_ind + 1` and shifts by `last_word_seen` and
`spill_shift`, as the source does. -/
theorem inject_big_unit_big_bit_locals (W BB w ws : Nat) (b : Block) (bs : Nat) :
    inject_big_unit_big_bit W BB w ws b bs =
      if bs + ws ≤ BB then
        let w := high_bits W w ws
        let b := b.wr (last_word_ind W bs)
          (high_bits W (b.rd (last_word_ind W bs)) (last_word_seen W bs))
        let b := b.wr (last_word_ind W bs)
          (b.rd (last_word_ind W bs) ||| (w >>> last_word_seen W bs))
        let b := if last_word_seen W bs + ws > W then
            b.wr (last_word_ind W bs + 1) ((w <<< spill_shift W bs) % 2 ^ W)
          else b
        (b, bs + ws)
      else (b, bs) := rfl

/-- C21: in `word_injector<big_unit_big_bit>::inject` with words of `W ≥ 1`
bits, a block of `BW` words (`BlockBits = BW * W`) and `word_seen ≤ W`, whenever
the guard `block_seen + word_seen ≤ BlockBits` passes: the index
`last_word_ind` is below `BW` exactly when `block_seen < BlockBits`, and in
particular whenever `word_seen ≥ 1`; whenever the spill branch
`last_word_seen + word_seen > W` is taken, the index `last_word_ind + 1` is
below `BW` and the shift amount `W - last_word_seen` is strictly between `0`
and `W`. -/
theorem big_unit_big_bit_index_and_shift_safety (W BW ws bs : Nat) (hW : 0 < W)
    (hws : ws ≤ W) (hg : bs + ws ≤ BW * W) :
    (last_word_ind W bs < BW ↔ bs < BW * W) ∧
    (1 ≤ ws → last_word_ind W bs < BW) ∧
    (last_word_seen W bs + ws > W →
      last_word_ind W bs + 1 < BW ∧ 0 < spill_shift W bs ∧ spill_shift W bs < W) := by
  unfold spill_shift last_word_ind last_word_seen
  have hr : bs % W < W := Nat.mod_lt bs hW
  refine ⟨Nat.div_lt_iff_lt_mul hW, fun h1 => index_lt_of_le W BW bs ws h1 hg, fun hs => ?_⟩
  exact ⟨next_index_lt_of_le W BW bs ws hs hg, by omega, by omega⟩

theorem big_unit_big_bit_index_and_shift_safety_witness :
    (last_word_ind 32 20 < 2 ↔ 20 < 2 * 32) ∧
    (1 ≤ 24 → last_word_ind 32 20 < 2) ∧
    (last_word_seen 32 20 + 24 > 32 →
      last_word_ind 32 20 + 1 < 2 ∧ 0 < spill_shift 32 20 ∧ spill_shift 32 20 < 32) :=
  big_unit_big_bit_index_and_shift_safety 32 2 24 20 (by decide) (by decide) (by decide)

namespace poseidon_lfsr

/-! ## The raw step is invertible -/

theorem bit_at_update_lfsr_state_raw_succ (state p : Nat) (hp : p + 1 ≤ 79) :
    bit_at (update_lfsr_state_raw state) p = bit_at state (p + 1) := by
  unfold bit_at
  rw [testBit_update_lfsr_state_raw]
  have h1 : 79 - p < 80 := by omega
  have h2 : ¬ (79 - p = 0) := by omega
  have h3 : 79 - p - 1 = 79 - (p + 1) := by omega
  rw [if_neg h2, h3, decide_eq_true h1, Bool.true_and]

theorem bit_at_update_lfsr_state_raw_last (state : Nat) :
    bit_at (update_lfsr_state_raw state) 79 = tap_xor state := by
  unfold bit_at
  rw [testBit_update_lfsr_state_raw]
  rfl

/-- The bit dropped by the raw step is the exclusive or of six bits of the
result. -/
theorem dropped_bit_recovered (state : Nat) :
    bit_at state 0 =
      xor (bit_at (update_lfsr_state_raw state) 79)
        (xor (bit_at (update_lfsr_state_raw state) 12)
          (xor (bit_at (update_lfsr_state_raw state) 22)
            (xor (bit_at (update_lfsr_state_raw state) 37)
              (xor (bit_at (update_lfsr_state_raw state) 50)
                (bit_at (update_lfsr_state_raw state) 61))))) := by
  rw [bit_at_update_lfsr_state_raw_last, bit_at_update_lfsr_state_raw_succ state 12 (by decide),
    bit_at_update_lfsr_state_raw_succ state 22 (by decide),
    bit_at_update_lfsr_state_raw_succ state 37 (by decide),
    bit_at_update_lfsr_state_raw_succ state 50 (by decide),
    bit_at_update_lfsr_state_raw_succ state 61 (by decide)]
  unfold tap_xor
  cases bit_at state 0 <;> cases bit_at state 13 <;> cases bit_at state 23 <;>
    cases bit_at state 38 <;> cases bit_at state 51 <;> cases bit_at state 62 <;> rfl

theorem update_lfsr_state_raw_inj (s t : Nat) (hs : s < 2 ^ 80) (ht : t < 2 ^ 80)
    (h : update_lfsr_state_raw s = update_lfsr_state_raw t) : s = t := by
  apply Nat.eq_of_testBit_eq
  intro i
  by_cases hi : i < 79
  · have e1 := testBit_update_lfsr_state_raw s (i + 1)
    have e2 := testBit_update_lfsr_state_raw t (i + 1)
    have hlt : i + 1 < 80 := by omega
    rw [if_neg (Nat.succ_ne_zero i), Nat.add_sub_cancel, decide_eq_true hlt,
      Bool.true_and] at e1 e2
    rw [← e1, ← e2, h]
  · by_cases h79 : i = 79
    · subst h79
      have e1 := dropped_bit_recovered s
      have e2 := dropped_bit_recovered t
      rw [h] at e1
      rw [← e2] at e1
      exact e1
    · rw [testBit_eq_false_of_lt hs (by omega), testBit_eq_false_of_lt ht (by omega)]

theorem update_lfsr_state_raw_zero : update_lfsr_state_raw 0 = 0 := by
  rw [update_lfsr_state_raw_eq]
  rfl

theorem update_lfsr_state_raw_ne_zero (s : Nat) (hs : s < 2 ^ 80) (h0 : s ≠ 0) :
    update_lfsr_state_raw s ≠ 0 := by
  intro h
  apply h0
  apply update_lfsr_state_raw_inj s 0 hs (by decide)
  rw [h, update_lfsr_state_raw_zero]

theorem iterate_update_lfsr_state_raw_ne_zero (n s : Nat) (hs : s < 2 ^ 80) (h0 : s ≠ 0) :
    update_lfsr_state_raw^[n] s ≠ 0 ∧ update_lfsr_state_raw^[n] s < 2 ^ 80 := by
  induction n with
  | zero => exact ⟨h0, hs⟩
  | succ n ih =>
    rw [Function.iterate_succ_apply']
    exact ⟨update_lfsr_state_raw_ne_zero _ ih.2 ih.1, update_lfsr_state_raw_lt _⟩

theorem encoded_parameters_ne_zero (wb sw fr pr : Nat) : encoded_parameters wb sw fr pr ≠ 0 := by
  unfold encoded_parameters
  norm_num

theorem get_lfsr_init_state_ne_zero (wb sw fr pr : Nat) :
    get_lfsr_init_state wb sw fr pr ≠ 0 := by
  unfold get_lfsr_init_state
  rw [lfsr_pre_idle_state_eq]
  exact (iterate_update_lfsr_state_raw_ne_zero 160 _ (encoded_parameters_lt wb sw fr pr)
    (encoded_parameters_ne_zero wb sw fr pr)).1

/-- C22: `update_lfsr_state_raw` is injective on 80-bit states, the bit it
drops (position 0, the most significant) being the exclusive or of the bits of
the result at positions 79, 12, 22, 37, 50 and 61; it maps the all-zero state
to itself, hence maps no non-zero 80-bit state to zero, and the state returned
by `get_lfsr_init_state` is non-zero for all parameters. -/
theorem update_lfsr_state_raw_injective_and_init_state_nonzero :
    (∀ s t : Nat, s < 2 ^ 80 → t < 2 ^ 80 →
      update_lfsr_state_raw s = update_lfsr_state_raw t → s = t) ∧
    (∀ s : Nat, bit_at s 0 =
      xor (bit_at (update_lfsr_state_raw s) 79)
        (xor (bit_at (update_lfsr_state_raw s) 12)
          (xor (bit_at (update_lfsr_state_raw s) 22)
            (xor (bit_at (update_lfsr_state_raw s) 37)
              (xor (bit_at (update_lfsr_state_raw s) 50)
                (bit_at (update_lfsr_state_raw s) 61)))))) ∧
    update_lfsr_state_raw 0 = 0 ∧
    (∀ s : Nat, s < 2 ^ 80 → s ≠ 0 → update_lfsr_state_raw s ≠ 0) ∧
    (∀ word_bits state_words full_rounds part_rounds : Nat,
      get_lfsr_init_state word_bits state_words full_rounds part_rounds ≠ 0) :=
  ⟨update_lfsr_state_raw_inj, dropped_bit_recovered, update_lfsr_state_raw_zero,
    update_lfsr_state_raw_ne_zero, get_lfsr_init_state_ne_zero⟩

theorem update_lfsr_state_raw_injective_and_init_state_nonzero_witness :
    update_lfsr_state_raw 604462909807314587353088 = 1 ∧
    update_lfsr_state_raw 1 = 2 ∧
    (604462909807314587353088 : Nat) < 2 ^ 80 ∧
    update_lfsr_state_raw 604462909807314587353088 ≠ update_lfsr_state_raw 1 ∧
    update_lfsr_state_raw 604462909807314587353088 ≠ 0 :=
  ⟨by decide, by decide, by decide,
    fun h => absurd
      (update_lfsr_state_raw_injective_and_init_state_nonzero.1 604462909807314587353088 1
        (by decide) (by decide) h) (by decide),
    update_lfsr_state_raw_injective_and_init_state_nonzero.2.2.2.1 604462909807314587353088
      (by decide) (by decide)⟩

end poseidon_lfsr

end Crypto3
